import Mathlib

/-!
# Verification of the ColorMappingEditor gradient core

Shallow embedding of the color model, gradient interpolation and control-point
editing operations of the ColorMappingEditor repository:

* `src/src/types.tsx` — `Color`, `INVALID_COLOR`, `ColorInterpolation`,
  `ControlPoint`, `ColorMap`, `ColorMapString`;
* `src/src/react/ColorPicker.tsx` (utils section) — `hexToColor`,
  `getColorAtPosition`, `colorMapStringToColorMap`, `colorMapToColorMapString`;
* `src/sites/legacy_demo/src/ColorMapEditor.tsx` — the control-point editor
  state updates: `handleCanvasClick` (insert), `handlePickerMove` (move),
  `handleRemoveIndex` (remove), `consolidateColorMap`, and the pointer-down
  snapshot of tied indices.

JavaScript numbers are modelled as exact rationals `ℚ`; color channels as `ℕ`.
Code paths that would throw in JavaScript (the external `chroma.mix` call on an
unparseable color string) are modelled with `Option`.
-/

namespace ColorMappingEditor

/-- `RGB` channels, integers in `[0,255]` for well-formed colors (src/src/types.tsx). -/
structure RGB where
  r : ℕ
  g : ℕ
  b : ℕ
  deriving Repr, DecidableEq

/-- `HSV` components (src/src/types.tsx). -/
structure HSV where
  h : ℚ
  s : ℚ
  v : ℚ
  deriving Repr, DecidableEq

/-- A color value carrying all four mutually derived fields (src/src/types.tsx). -/
structure Color where
  rgb : RGB
  hsv : HSV
  hex : String
  isDark : Bool
  deriving Repr, DecidableEq

/-- Fallback for invalid colors (src/src/types.tsx, `INVALID_COLOR`). -/
def INVALID_COLOR : Color :=
  { rgb := ⟨0, 0, 0⟩, hsv := ⟨0, 0, 0⟩, hex := "#000000", isDark := false }

/- Hex parsing and formatting are modelled from the spec: the repository
parses and prints colors through the external `chroma-js` library
(`chroma(hex)`, `.hex()`).  We model the hex-string subset of its input
grammar — `#rrggbb` and `#rgb`, case-insensitive — and its canonical lowercase
6-digit output.  Named CSS colors accepted by the library are outside the
model; a string the model rejects is treated as invalid input. -/

/-- Value of one hexadecimal digit, case-insensitive. -/
def hexDigitVal (c : Char) : Option ℕ :=
  if '0' ≤ c ∧ c ≤ '9' then some (c.toNat - '0'.toNat)
  else if 'a' ≤ c ∧ c ≤ 'f' then some (c.toNat - 'a'.toNat + 10)
  else if 'A' ≤ c ∧ c ≤ 'F' then some (c.toNat - 'A'.toNat + 10)
  else none

/-- Parse `#rrggbb` or `#rgb` into RGB channels; `none` on anything else. -/
def parseHexColor (s : String) : Option RGB :=
  match s.toList with
  | '#' :: [c1, c2, c3, c4, c5, c6] =>
    match hexDigitVal c1, hexDigitVal c2, hexDigitVal c3,
          hexDigitVal c4, hexDigitVal c5, hexDigitVal c6 with
    | some h1, some h2, some h3, some h4, some h5, some h6 =>
      some ⟨16 * h1 + h2, 16 * h3 + h4, 16 * h5 + h6⟩
    | _, _, _, _, _, _ => none
  | '#' :: [c1, c2, c3] =>
    match hexDigitVal c1, hexDigitVal c2, hexDigitVal c3 with
    | some h1, some h2, some h3 => some ⟨17 * h1, 17 * h2, 17 * h3⟩
    | _, _, _ => none
  | _ => none

/-- Lowercase hex character of a digit `< 16`. -/
def hexDigitChar (n : ℕ) : Char :=
  if n < 10 then Char.ofNat ('0'.toNat + n) else Char.ofNat ('a'.toNat + (n - 10))

/-- Two lowercase hex characters of a byte. -/
def byteHex (n : ℕ) : List Char := [hexDigitChar (n / 16), hexDigitChar (n % 16)]

/-- Canonical lowercase `#rrggbb` form of an RGB triple (the `.hex()` output of
the external library). -/
def rgbToHexString (c : RGB) : String :=
  String.mk ('#' :: (byteHex c.r ++ byteHex c.g ++ byteHex c.b))

/-- Modelled from the spec: the `.hsv()` conversion of the external `chroma-js`
library, the standard exact RGB→HSV formula.  The library reports an undefined
(NaN) hue for achromatic colors; the model pins it to `0`.  No theorem below
depends on the `hsv` field of a color. -/
def rgbToHsv (c : RGB) : HSV :=
  let r : ℚ := c.r
  let g : ℚ := c.g
  let b : ℚ := c.b
  let mx := max r (max g b)
  let mn := min r (min g b)
  let d := mx - mn
  let v := mx / 255
  let s := if mx = 0 then 0 else d / mx
  let h6 : ℚ :=
    if d = 0 then 0
    else if mx = r then (g - b) / d
    else if mx = g then 2 + (b - r) / d
    else 4 + (r - g) / d
  let h := 60 * h6
  ⟨if h < 0 then h + 360 else h, s, v⟩

/-- Modelled from the spec: `isDark` is "relative luminance `< 0.5`"
(src/src/utils, `tcolor.luminance() < 0.5`).  The library's sRGB transfer curve
uses an irrational exponent, so the model uses the linear-coefficient luminance;
no theorem below depends on the `isDark` field of a color. -/
def isDarkRGB (c : RGB) : Bool :=
  decide ((2126 * (c.r : ℚ) + 7152 * (c.g : ℚ) + 722 * (c.b : ℚ)) / (10000 * 255) < 1 / 2)

/-- The canonical color constructor (src/src/utils, `chromaColorToColor`):
all four fields derived from the RGB channels. -/
def colorOfRgb (c : RGB) : Color :=
  { rgb := c, hsv := rgbToHsv c, hex := rgbToHexString c, isDark := isDarkRGB c }

/-- `hexToColor` (src/src/utils): parse a color string; on invalid input return
`INVALID_COLOR` (a warning is logged, nothing is thrown). -/
def hexToColor (s : String) : Color :=
  match parseHexColor s with
  | none => INVALID_COLOR
  | some rgb => colorOfRgb rgb

/-- A color that satisfies the data-model invariant "all four fields are
mutually consistent, constructed via the canonical entry point": channels are
bytes and `hex` is their canonical rendering. -/
def WfColor (c : Color) : Prop :=
  c.rgb.r ≤ 255 ∧ c.rgb.g ≤ 255 ∧ c.rgb.b ≤ 255 ∧ c.hex = rgbToHexString c.rgb

instance : DecidablePred WfColor := fun c => by unfold WfColor; infer_instance

/-- Interpolation method enum (src/src/types.tsx, `ColorInterpolation`). -/
inductive ColorInterpolation where
  | RGB
  | HSV
  | LAB
  deriving Repr, DecidableEq

/-- A single color stop (src/src/types.tsx, `ControlPoint`). -/
structure ControlPoint where
  color : Color
  position : ℚ
  deriving Repr, DecidableEq

/-- A color map.  `startRange`/`endRange` are optional in the legacy-demo
editor's type (`startRange?: number`); every consumer defaults them to `0`
and `1` with `?? 0` / `?? 1` or destructuring defaults, modelled by `.getD`. -/
structure ColorMap where
  controlPoints : List ControlPoint
  interpolationMethod : ColorInterpolation
  startRange : Option ℚ
  endRange : Option ℚ
  deriving Repr, DecidableEq

/-- Serializable control point, color as a string (src/src/types.tsx). -/
structure ControlPointString where
  color : String
  position : ℚ
  deriving Repr, DecidableEq

/-- Serializable color map (src/src/types.tsx, `ColorMapString`);
`startRange?`/`endRange?` are optional. -/
structure ColorMapString where
  controlPoints : List ControlPointString
  interpolationMethod : ColorInterpolation
  startRange : Option ℚ
  endRange : Option ℚ
  deriving Repr, DecidableEq

/-- JavaScript `Math.round`: round half toward positive infinity. -/
def jsRound (q : ℚ) : ℤ := ⌊q + 1 / 2⌋

/-- Clamp a channel to `[0,255]` (the external library clips channels when
rendering to hex). -/
def clampChannel (z : ℤ) : ℕ := (max 0 (min 255 z)).toNat

/-- One linearly interpolated, rounded, clipped channel. -/
def mixChannel (a b : ℕ) (t : ℚ) : ℕ :=
  clampChannel (jsRound ((a : ℚ) + ((b : ℚ) - (a : ℚ)) * t))

/-- Linear per-channel RGB interpolation. -/
def mixRgbLinear (c0 c1 : RGB) (t : ℚ) : RGB :=
  ⟨mixChannel c0.r c1.r t, mixChannel c0.g c1.g t, mixChannel c0.b c1.b t⟩

/-- Modelled from the spec: `chroma.mix(h0, h1, t, mode)` of the external
`chroma-js` library — linear interpolation in the color space named by `mode`
(§4.2 step 6 of the spec).  `RGB` mode is the exact linear per-channel formula.
At `t = 0` and `t = 1` the library returns the respective endpoint color
exactly at 24-bit hex precision in every mode, which the model reflects; the
interior values of the `HSV` and `LAB` modes (NaN-hue handling, an irrational
sRGB→Lab transform) have no exact rational embedding and are approximated by
the linear RGB formula.  No theorem below depends on an interior `HSV`/`LAB`
mixture value. -/
def chromaMix (mode : ColorInterpolation) (c0 c1 : RGB) (t : ℚ) : RGB :=
  match mode with
  | .RGB => mixRgbLinear c0 c1 t
  | .HSV => if t = 0 then c0 else if t = 1 then c1 else mixRgbLinear c0 c1 t
  | .LAB => if t = 0 then c0 else if t = 1 then c1 else mixRgbLinear c0 c1 t

/-- The normalization step of `getColorAtPosition`:
`t = (position - startRange) / (endRange - startRange === 0 ? 1 : endRange - startRange)`. -/
def normalizeT (m : ColorMap) (position : ℚ) : ℚ :=
  let s := m.startRange.getD 0
  let e := m.endRange.getD 1
  (position - s) / (if e - s = 0 then 1 else e - s)

/-- The scan of `getColorAtPosition`: the first adjacent pair `(a, b)` with
`u >= a.position && u <= b.position`, if any. -/
def findPair : List ControlPoint → ℚ → Option (ControlPoint × ControlPoint)
  | a :: b :: rest, u =>
    if a.position ≤ u ∧ u ≤ b.position then some (a, b) else findPair (b :: rest) u
  | _, _ => none

/-- Junk control point used as the default of `headD`/`getLastD` on paths that
are only reached with a nonempty list. -/
def cpDefault : ControlPoint := ⟨INVALID_COLOR, 0⟩

/-- `getColorAtPosition` (src/src/react/ColorPicker.tsx utils section).
Returns `none` exactly where the JavaScript would throw: the external
`chroma.mix` call on a control-point color whose `hex` string does not parse.
The copy of this function in the legacy demo
(src/sites/legacy_demo/src/ColorMapEditor.tsx, lines 47–92) differs only in
the empty-list branch, where it returns a raw `'#000000'` string (an upstream
type error); every other branch is identical. -/
def getColorAtPosition (m : ColorMap) (position : ℚ) : Option Color :=
  if m.controlPoints.isEmpty then some INVALID_COLOR
  else
    let t := normalizeT m position
    let u := min 1 (max 0 t)
    if m.controlPoints.length = 1 then some (m.controlPoints.headD cpDefault).color
    else
      let lr := (findPair m.controlPoints u).getD
        (m.controlPoints.headD cpDefault, m.controlPoints.getLastD cpDefault)
      let localT := (u - lr.1.position) /
        (if lr.2.position - lr.1.position = 0 then 1 else lr.2.position - lr.1.position)
      match parseHexColor lr.1.color.hex, parseHexColor lr.2.color.hex with
      | some rgb0, some rgb1 =>
        some (hexToColor (rgbToHexString (chromaMix m.interpolationMethod rgb0 rgb1 localT)))
      | _, _ => none

/-- `colorMapStringToColorMap`: parse every color, default the ranges
(`startRange ?? 0`, `endRange ?? 1`). -/
def colorMapStringToColorMap (cms : ColorMapString) : ColorMap :=
  { controlPoints := cms.controlPoints.map fun cp =>
      { position := cp.position, color := hexToColor cp.color },
    interpolationMethod := cms.interpolationMethod,
    startRange := some (cms.startRange.getD 0),
    endRange := some (cms.endRange.getD 1) }

/-- `colorMapToColorMapString`: reduce every color to its `hex` string. -/
def colorMapToColorMapString (m : ColorMap) : ColorMapString :=
  { controlPoints := m.controlPoints.map fun cp =>
      { position := cp.position, color := cp.color.hex },
    interpolationMethod := m.interpolationMethod,
    startRange := m.startRange,
    endRange := m.endRange }

/-- `handleRemoveIndex` (lines 326–350), the state update: refuse when fewer
than 2 control points exist, otherwise drop the point at `index`. -/
def removeControlPoint (m : ColorMap) (index : ℕ) : ColorMap :=
  if m.controlPoints.length < 2 then m
  else { m with controlPoints := (m.controlPoints.enum.filter fun x => x.1 ≠ index).map (·.2) }

/-- `handleCanvasClick` (lines 442–484), the state update: sample the gradient
at `pos`, find the first existing point with a larger position (`findIndex`,
`-1 ↦ length`) and insert before it.  The UI wrapper computes `pos` from the
click as `start + t * (end - start)` with `t` clamped to `[0,1]`; the update
itself works for any `pos`.  When the gradient sample would throw (unparseable
stored color) no insertion happens. -/
def insertControlPoint (m : ColorMap) (pos : ℚ) : ColorMap :=
  match getColorAtPosition m pos with
  | none => m
  | some colorAtPos =>
    let insertIndex := (m.controlPoints.findIdx? fun cp => decide (pos < cp.position)).getD
      m.controlPoints.length
    { m with controlPoints :=
        m.controlPoints.take insertIndex ++ ⟨colorAtPos, pos⟩ :: m.controlPoints.drop insertIndex }

/-- The pointer-down snapshot (lines 555–565): all indices whose point sits
exactly at the pressed point's position. -/
def tiedIndices (cps : List ControlPoint) (p : ℚ) : List ℕ :=
  (cps.enum.filter fun x => x.2.position = p).map (·.1)

/-- `Math.max(...l)` on a nonempty list of indices (`0` stands in for the
unreachable empty case, where JavaScript yields `-Infinity`). -/
def jsMax (l : List ℕ) : ℕ := l.foldl Nat.max 0

/-- `Math.min(...l)` on a nonempty list of indices. -/
def jsMin : List ℕ → ℕ
  | [] => 0
  | x :: xs => xs.foldl Nat.min x

/-- `newControlPoints[i] = {...newControlPoints[i], position: p}` for an
in-range `i`; out-of-range writes do not occur during a gesture. -/
def setPosition (l : List ControlPoint) (i : ℕ) (p : ℚ) : List ControlPoint :=
  match l.get? i with
  | some cp => l.set i { cp with position := p }
  | none => l

/-- `handlePickerMove` (lines 382–440), the state update, taking the
pointer-down refs `pdPos` (`pointerDownPosRef`) and `pdIdx`
(`pointerDownIndicesRef`) and the already-computed pointer position `newPos`.
The representative index is the extreme tied index in the drag direction; all
other tied indices are pinned back to `pdPos`; the representative is clamped
between its original neighbors (range bounds when it has none) and written
only when the clamped position differs (otherwise the untouched previous map
is returned).  `none` models the JavaScript throw on an out-of-range
representative index, which cannot occur during a gesture. -/
def movePointRefs (m : ColorMap) (pdPos : ℚ) (pdIdx : List ℕ) (newPos : ℚ) : Option ColorMap :=
  let s := m.startRange.getD 0
  let e := m.endRange.getD 1
  let index := if pdPos < newPos then jsMax pdIdx else jsMin pdIdx
  let cps1 := pdIdx.foldl (fun l i => if i = index then l else setPosition l i pdPos)
    m.controlPoints
  match cps1.get? index with
  | none => none
  | some cpAtIdx =>
    let prevPos := cpAtIdx.position
    let leftNb := if index = 0 then none else m.controlPoints.get? (index - 1)
    let rightNb := m.controlPoints.get? (index + 1)
    let minLimit := (leftNb.map (·.position)).getD s
    let maxLimit := (rightNb.map (·.position)).getD e
    let newPos2 := max minLimit (min maxLimit newPos)
    if newPos2 = prevPos then some m
    else some { m with controlPoints := setPosition cps1 index newPos2 }

/-- One `Move(index, newPosition)` operation: the pointer-down snapshot taken
on the current map (`onPointerDown`, lines 555–565) followed by one
`handlePickerMove` state update.  A press on a nonexistent index does nothing
(it cannot occur in the UI), and the `getD` fallback is unreachable because the
snapshot always yields a valid representative. -/
def moveControlPoint (m : ColorMap) (i : ℕ) (newPos : ℚ) : ColorMap :=
  match m.controlPoints.get? i with
  | none => m
  | some cp => (movePointRefs m cp.position (tiedIndices m.controlPoints cp.position) newPos).getD m

/-- The position of the point at index `i`, when present. -/
def posAt? (cps : List ControlPoint) (i : ℕ) : Option ℚ := (cps.get? i).map (·.position)

/-- The marking loop of `consolidateColorMap` (lines 486–520): index `i` is
pushed onto `indicesToRemove` when it is a non-last duplicate at `startRange`,
a non-first duplicate at `endRange`, or an interior point whose both immediate
neighbors share its exact position.  `prevPoint`/`nextPoint` are the optional
`newControlPoints[i-1]`/`newControlPoints[i+1]`. -/
def shouldRemove (cps : List ControlPoint) (s e : ℚ) (i : ℕ) : Bool :=
  let prevPos := if i = 0 then none else posAt? cps (i - 1)
  let nextPos := posAt? cps (i + 1)
  match posAt? cps i with
  | none => false
  | some p =>
    if p = s ∧ nextPos = some s then true
    else if p = e ∧ prevPos = some e then true
    else if p ≠ s ∧ p ≠ e ∧ prevPos = some p ∧ nextPos = some p then true
    else false

/-- The splice loop of `consolidateColorMap`: the marked indices are produced
in ascending order, sorted descending and spliced out one by one; erasing the
ascending list by recursing first performs exactly those splices in the
source's descending order. -/
def spliceAsc : List ControlPoint → List ℕ → List ControlPoint
  | l, [] => l
  | l, i :: is => (spliceAsc l is).eraseIdx i

/-- `consolidateColorMap` (lines 486–520). -/
def consolidateColorMap (m : ColorMap) : ColorMap :=
  let s := m.startRange.getD 0
  let e := m.endRange.getD 1
  let marks := (List.range m.controlPoints.length).filter (shouldRemove m.controlPoints s e)
  { m with controlPoints := spliceAsc m.controlPoints marks }

/-- An edit operation of the control-point editor. -/
inductive EditOp where
  | insert (pos : ℚ)
  | move (index : ℕ) (newPos : ℚ)
  | consolidate

/-- Apply one edit operation. -/
def applyOp (m : ColorMap) : EditOp → ColorMap
  | .insert pos => insertControlPoint m pos
  | .move i newPos => moveControlPoint m i newPos
  | .consolidate => consolidateColorMap m

/-- Non-decreasing positions (the spec's "monotonic ordering" invariant). -/
def SortedCM (m : ColorMap) : Prop :=
  m.controlPoints.Pairwise fun a b => a.position ≤ b.position

/-- The data-model range invariant: `startRange ≤ endRange` and every position
lies within `[startRange, endRange]` (after defaulting). -/
def InRange (m : ColorMap) : Prop :=
  m.startRange.getD 0 ≤ m.endRange.getD 1 ∧
    ∀ cp ∈ m.controlPoints,
      m.startRange.getD 0 ≤ cp.position ∧ cp.position ≤ m.endRange.getD 1

/-- Concrete well-formed black, explicit literal. -/
def blackColor : Color :=
  { rgb := ⟨0, 0, 0⟩, hsv := ⟨0, 0, 0⟩, hex := "#000000", isDark := true }

/-- Concrete well-formed white, explicit literal. -/
def whiteColor : Color :=
  { rgb := ⟨255, 255, 255⟩, hsv := ⟨0, 0, 1⟩, hex := "#ffffff", isDark := false }

def cexMapC1 : ColorMap :=
  { controlPoints := [⟨blackColor, 0⟩, ⟨whiteColor, 2⟩], interpolationMethod := .RGB,
    startRange := some 0, endRange := some 2 }

/-- The representative index a move evaluation picks: the extreme tied index in
the drag direction. -/
def moveRep (m : ColorMap) (p newPos : ℚ) : ℕ :=
  if p < newPos then jsMax (tiedIndices m.controlPoints p)
  else jsMin (tiedIndices m.controlPoints p)

/-- The representative's clamped target position. -/
def moveClamped (m : ColorMap) (newPos : ℚ) (r : ℕ) : ℚ :=
  max (((if r = 0 then none else m.controlPoints.get? (r - 1)).map (·.position)).getD
        (m.startRange.getD 0))
    (min (((m.controlPoints.get? (r + 1)).map (·.position)).getD (m.endRange.getD 1)) newPos)

/-- Side condition of an edit operation: an insertion position must lie inside
the map's domain (the UI always produces one there). -/
def OpOK (s e : ℚ) : EditOp → Prop
  | .insert pos => s ≤ pos ∧ pos ≤ e
  | .move _ _ => True
  | .consolidate => True

def cexMapC2 : ColorMap :=
  { controlPoints := [⟨blackColor, 0⟩, ⟨whiteColor, 1⟩],
    interpolationMethod := .RGB, startRange := some 2, endRange := some 4 }

def cexMapC3 : ColorMap :=
  { controlPoints := [⟨blackColor, 0⟩, ⟨whiteColor, 1⟩, ⟨blackColor, 1⟩, ⟨whiteColor, 2⟩],
    interpolationMethod := .RGB, startRange := some 0, endRange := some 2 }

def cexMapC4 : ColorMap :=
  { controlPoints := [⟨blackColor, 1⟩, ⟨whiteColor, 1⟩, ⟨blackColor, 2⟩, ⟨whiteColor, 2⟩,
      ⟨blackColor, 1⟩],
    interpolationMethod := .RGB, startRange := some 2, endRange := some 2 }

def cexMapC5 : ColorMap :=
  { controlPoints := [⟨blackColor, 0⟩, ⟨whiteColor, 1⟩],
    interpolationMethod := .RGB, startRange := some 0, endRange := some 1 }

def cexMapC7 : ColorMap :=
  { controlPoints := [⟨blackColor, 0⟩, ⟨whiteColor, 1⟩],
    interpolationMethod := .RGB, startRange := some 0, endRange := some 0 }

/-- The surviving points of the marking pass, as an index filter. -/
def keptList (l : List ControlPoint) (p : ℕ → Bool) : List ControlPoint :=
  ((List.range l.length).filter fun i => !p i).map fun i => l.getD i cpDefault

/-- The indices of the surviving points. -/
def keptIdx (l : List ControlPoint) (p : ℕ → Bool) : List ℕ :=
  (List.range l.length).filter fun i => !p i

/-- Indices of the points sitting exactly at position `q`. -/
def runIdx (cps : List ControlPoint) (q : ℚ) : List ℕ :=
  (List.range cps.length).filter fun i => decide ((cps.getD i cpDefault).position = q)

instance (m : ColorMap) : Decidable (SortedCM m) := by
  unfold SortedCM
  infer_instance

instance (m : ColorMap) : Decidable (InRange m) := by
  unfold InRange
  infer_instance

/-- Concrete map used by the C1 witness: normalized positions `0` and `1`. -/
def wmapC1 : ColorMap :=
  { controlPoints := [⟨blackColor, 0⟩, ⟨whiteColor, 1⟩],
    interpolationMethod := .RGB, startRange := some 0, endRange := some 1 }

/-- Concrete map used by the C2 witness. -/
def wmapC2 : ColorMap :=
  { controlPoints := [⟨blackColor, 0⟩, ⟨whiteColor, 2⟩],
    interpolationMethod := .RGB, startRange := some 0, endRange := some 2 }

/-- Concrete sorted map with an interior duplicate, used by the C3 witness. -/
def wmapC3 : ColorMap :=
  { controlPoints := [⟨blackColor, 0⟩, ⟨whiteColor, 1⟩, ⟨blackColor, 1⟩, ⟨whiteColor, 2⟩],
    interpolationMethod := .RGB, startRange := some 0, endRange := some 2 }

/-- Concrete sorted map with an interior triple, used by the C4 witness. -/
def wmapC4 : ColorMap :=
  { controlPoints := [⟨blackColor, 0⟩, ⟨whiteColor, 1⟩, ⟨blackColor, 1⟩, ⟨whiteColor, 1⟩,
      ⟨blackColor, 2⟩],
    interpolationMethod := .RGB, startRange := some 0, endRange := some 2 }

/-- One-point map used by the C5 witness: removal is refused. -/
def wmapC5a : ColorMap :=
  { controlPoints := [⟨blackColor, 0⟩],
    interpolationMethod := .RGB, startRange := some 0, endRange := some 1 }

/-- Three-point map used by the C5 witness: removal drops one point. -/
def wmapC5b : ColorMap :=
  { controlPoints := [⟨blackColor, 0⟩, ⟨whiteColor, 1⟩, ⟨blackColor, 2⟩],
    interpolationMethod := .RGB, startRange := some 0, endRange := some 2 }

/-- Map with two control points tied at position `1`, used by the C6 and C10
witnesses. -/
def wmapC6 : ColorMap :=
  { controlPoints := [⟨blackColor, 1⟩, ⟨whiteColor, 1⟩, ⟨blackColor, 2⟩],
    interpolationMethod := .RGB, startRange := some 0, endRange := some 2 }

/-- Map with no control points, used by the C8 witness. -/
def emptyMapC8 : ColorMap :=
  { controlPoints := [], interpolationMethod := .RGB, startRange := none, endRange := none }

/-- Serializable map with mixed-case and shorthand colors and omitted ranges,
used by the C9 witness. -/
def wmsC9 : ColorMapString :=
  { controlPoints := [{ color := "#FF0000", position := 0 }, { color := "#0f0", position := 1 }],
    interpolationMethod := .RGB, startRange := none, endRange := none }

theorem hexDigit_roundTrip : ∀ d, d < 16 → hexDigitVal (hexDigitChar d) = some d := by decide

theorem parse_rgbToHexString (c : RGB) (hr : c.r ≤ 255) (hg : c.g ≤ 255) (hb : c.b ≤ 255) :
    parseHexColor (rgbToHexString c) = some c := by
  have hdiv : ∀ n : ℕ, n ≤ 255 → n / 16 < 16 := fun n hn => Nat.div_lt_of_lt_mul (by omega)
  have hmod : ∀ n : ℕ, n % 16 < 16 := fun n => Nat.mod_lt _ (by omega)
  obtain ⟨r, g, b⟩ := c
  simp only [rgbToHexString, byteHex, parseHexColor, String.toList, List.cons_append,
    List.nil_append]
  rw [hexDigit_roundTrip _ (hdiv r hr), hexDigit_roundTrip _ (hmod r),
    hexDigit_roundTrip _ (hdiv g hg), hexDigit_roundTrip _ (hmod g),
    hexDigit_roundTrip _ (hdiv b hb), hexDigit_roundTrip _ (hmod b)]
  simp only [Option.some.injEq, RGB.mk.injEq]
  omega

theorem hexDigitVal_le {ch : Char} {y : ℕ} (h : hexDigitVal ch = some y) : y ≤ 15 := by
  unfold hexDigitVal at h
  split at h
  · next hc =>
    have h2 : ch.toNat ≤ ('9' : Char).toNat := hc.2
    have h9 : ('9' : Char).toNat = 57 := rfl
    have h0 : ('0' : Char).toNat = 48 := rfl
    simp only [Option.some.injEq] at h
    omega
  · split at h
    · next hc =>
      have h2 : ch.toNat ≤ ('f' : Char).toNat := hc.2
      have h1 : ('a' : Char).toNat ≤ ch.toNat := hc.1
      have hf : ('f' : Char).toNat = 102 := rfl
      have ha : ('a' : Char).toNat = 97 := rfl
      simp only [Option.some.injEq] at h
      omega
    · split at h
      · next hc =>
        have h2 : ch.toNat ≤ ('F' : Char).toNat := hc.2
        have h1 : ('A' : Char).toNat ≤ ch.toNat := hc.1
        have hf : ('F' : Char).toNat = 70 := rfl
        have ha : ('A' : Char).toNat = 65 := rfl
        simp only [Option.some.injEq] at h
        omega
      · exact absurd h (by simp)

theorem parseHexColor_bounds {s : String} {c : RGB} (h : parseHexColor s = some c) :
    c.r ≤ 255 ∧ c.g ≤ 255 ∧ c.b ≤ 255 := by
  unfold parseHexColor at h
  split at h
  · split at h
    · next h1 h2 h3 h4 h5 h6 =>
      simp only [Option.some.injEq] at h
      have := hexDigitVal_le h1
      have := hexDigitVal_le h2
      have := hexDigitVal_le h3
      have := hexDigitVal_le h4
      have := hexDigitVal_le h5
      have := hexDigitVal_le h6
      subst h
      refine ⟨by simp; omega, by simp; omega, by simp; omega⟩
    · exact absurd h (by simp)
  · split at h
    · next h1 h2 h3 =>
      simp only [Option.some.injEq] at h
      have := hexDigitVal_le h1
      have := hexDigitVal_le h2
      have := hexDigitVal_le h3
      subst h
      refine ⟨by simp; omega, by simp; omega, by simp; omega⟩
    · exact absurd h (by simp)
  · exact absurd h (by simp)

theorem hexToColor_rgbToHexString (c : RGB) (hr : c.r ≤ 255) (hg : c.g ≤ 255) (hb : c.b ≤ 255) :
    hexToColor (rgbToHexString c) = colorOfRgb c := by
  unfold hexToColor
  rw [parse_rgbToHexString c hr hg hb]

theorem mixChannel_zero (a b : ℕ) (ha : a ≤ 255) : mixChannel a b 0 = a := by
  unfold mixChannel jsRound clampChannel
  norm_num
  omega

theorem mixChannel_one (a b : ℕ) (hb : b ≤ 255) : mixChannel a b 1 = b := by
  unfold mixChannel jsRound clampChannel
  have : (a : ℚ) + ((b : ℚ) - (a : ℚ)) * 1 + 1 / 2 = (b : ℚ) + 1 / 2 := by ring
  rw [this]
  have hfl : ⌊(b : ℚ) + 1 / 2⌋ = (b : ℤ) := by
    rw [Int.floor_eq_iff]
    constructor
    · push_cast; linarith
    · push_cast; linarith
  rw [hfl]
  omega

theorem chromaMix_zero (mode : ColorInterpolation) (c0 c1 : RGB)
    (h0 : c0.r ≤ 255 ∧ c0.g ≤ 255 ∧ c0.b ≤ 255) : chromaMix mode c0 c1 0 = c0 := by
  obtain ⟨hr, hg, hb⟩ := h0
  cases mode <;> simp [chromaMix, mixRgbLinear, mixChannel_zero _ _ hr,
    mixChannel_zero _ _ hg, mixChannel_zero _ _ hb]

theorem chromaMix_one (mode : ColorInterpolation) (c0 c1 : RGB)
    (h1 : c1.r ≤ 255 ∧ c1.g ≤ 255 ∧ c1.b ≤ 255) : chromaMix mode c0 c1 1 = c1 := by
  obtain ⟨hr, hg, hb⟩ := h1
  cases mode <;> simp [chromaMix, mixRgbLinear, mixChannel_one _ _ hr,
    mixChannel_one _ _ hg, mixChannel_one _ _ hb]

/-- Unfolding of `getColorAtPosition` on the multi-point path, given the pair
the scan finds and the parses of its colors. -/
theorem getColorAtPosition_eq_mix (m : ColorMap) (pos : ℚ) (a b : ControlPoint) (rgb0 rgb1 : RGB)
    (hlen : 2 ≤ m.controlPoints.length)
    (hfp : findPair m.controlPoints (min 1 (max 0 (normalizeT m pos))) = some (a, b))
    (h0 : parseHexColor a.color.hex = some rgb0)
    (h1 : parseHexColor b.color.hex = some rgb1) :
    getColorAtPosition m pos =
      some (hexToColor (rgbToHexString (chromaMix m.interpolationMethod rgb0 rgb1
        ((min 1 (max 0 (normalizeT m pos)) - a.position) /
          (if b.position - a.position = 0 then 1 else b.position - a.position))))) := by
  have hne : m.controlPoints.isEmpty = false := by
    cases h : m.controlPoints with
    | nil => rw [h] at hlen; simp at hlen
    | cons x xs => simp [List.isEmpty]
  have hlen1 : ¬ m.controlPoints.length = 1 := by omega
  unfold getColorAtPosition
  rw [hne]
  simp only [Bool.false_eq_true, if_false, if_neg hlen1, hfp, Option.getD_some, h0, h1]

/-- The scan at `u = 0` picks the first pair when the head sits at `0` and the
second point is not below `0`. -/
theorem findPair_at_zero (a b : ControlPoint) (rest : List ControlPoint)
    (ha : a.position = 0) (hb : 0 ≤ b.position) :
    findPair (a :: b :: rest) 0 = some (a, b) := by
  unfold findPair
  rw [if_pos ⟨le_of_eq ha, hb⟩]

/-- The scan at `u = 1` reaches the final pair when positions strictly ascend
up to a last point at `1`. -/
theorem findPair_at_one :
    ∀ (a b : ControlPoint) (rest : List ControlPoint),
      (a :: b :: rest).Pairwise (fun x y => x.position < y.position) →
      ∀ q, (a :: b :: rest).getLast? = some q → q.position = 1 →
      ∃ p, findPair (a :: b :: rest) 1 = some (p, q) ∧ p.position < 1 := by
  intro a b rest
  induction rest generalizing a b with
  | nil =>
    intro hs q hq hq1
    have hbq : b = q := by simpa using hq
    subst hbq
    have hab : a.position < b.position := (List.pairwise_cons.mp hs).1 b (by simp)
    refine ⟨a, ?_, by rw [hq1] at hab; linarith⟩
    unfold findPair
    rw [if_pos ⟨by rw [hq1] at hab; linarith, le_of_eq hq1.symm⟩]
  | cons c rest' ih =>
    intro hs q hq hq1
    have hq' : (b :: c :: rest').getLast? = some q := by
      rw [List.getLast?_cons_cons] at hq; exact hq
    have hqmem : q ∈ c :: rest' := by
      rw [List.getLast?_cons_cons] at hq'
      exact List.mem_of_mem_getLast? hq'
    have hstail : (b :: c :: rest').Pairwise (fun x y => x.position < y.position) :=
      (List.pairwise_cons.mp hs).2
    have hb1 : b.position < 1 := by
      have := (List.pairwise_cons.mp hstail).1 q hqmem
      rw [hq1] at this; exact this
    obtain ⟨p, hp, hp1⟩ := ih b c hstail q hq' hq1
    refine ⟨p, ?_, hp1⟩
    unfold findPair
    rw [if_neg (by rintro ⟨-, h2⟩; linarith)]
    exact hp

theorem findPair_mem :
    ∀ (l : List ControlPoint) (u : ℚ) (p q : ControlPoint),
      findPair l u = some (p, q) → p ∈ l ∧ q ∈ l := by
  intro l
  induction l with
  | nil => intro u p q h; simp [findPair] at h
  | cons a rest ih =>
    intro u p q h
    cases rest with
    | nil => simp [findPair] at h
    | cons b rest' =>
      unfold findPair at h
      split at h
      · simp only [Option.some.injEq, Prod.mk.injEq] at h
        obtain ⟨rfl, rfl⟩ := h
        exact ⟨by simp, by simp⟩
      · have := ih u p q h
        exact ⟨List.mem_cons_of_mem _ this.1, List.mem_cons_of_mem _ this.2⟩

theorem wf_parse {c : Color} (h : WfColor c) : parseHexColor c.hex = some c.rgb := by
  obtain ⟨hr, hg, hb, hhex⟩ := h
  rw [hhex]
  exact parse_rgbToHexString _ hr hg hb

/-- C1 (corrected): for a ColorMap with at least two strictly ascending control
points whose first point sits at position `0` and last at position `1`, whose
range is non-degenerate and whose stored colors are well-formed,
`getColorAtPosition` at `startRange` returns the first point's color and at
`endRange` the last point's color (at 24-bit hex precision).  As stated the
claim fails: the scan compares the normalized parameter `u` in `[0,1]` against
the raw control-point positions, so maps whose positions are not already
normalized pick the wrong pair. -/
theorem C1_interpolation_boundary (m : ColorMap)
    (hsorted : m.controlPoints.Pairwise fun x y => x.position < y.position)
    (hlen : 2 ≤ m.controlPoints.length)
    (hhead : (m.controlPoints.headD cpDefault).position = 0)
    (hlast : (m.controlPoints.getLastD cpDefault).position = 1)
    (hrange : m.startRange.getD 0 ≠ m.endRange.getD 1)
    (hwf : ∀ cp ∈ m.controlPoints, WfColor cp.color) :
    (getColorAtPosition m (m.startRange.getD 0)).map (·.hex) =
      some (m.controlPoints.headD cpDefault).color.hex ∧
    (getColorAtPosition m (m.endRange.getD 1)).map (·.hex) =
      some (m.controlPoints.getLastD cpDefault).color.hex := by
  obtain ⟨cps, meth, sr, er⟩ := m
  match hcps : cps with
  | [] => simp [hcps] at hlen
  | [x] => simp [hcps] at hlen
  | a :: b :: rest =>
  subst hcps
  simp only [List.headD_cons] at hhead ⊢
  set m : ColorMap := ⟨a :: b :: rest, meth, sr, er⟩ with hm
  have hwfa : WfColor a.color := hwf a (by simp [hm])
  have hab : a.position < b.position := (List.pairwise_cons.mp hsorted).1 b (by simp)
  constructor
  · -- start boundary
    have hnt : normalizeT m (m.startRange.getD 0) = 0 := by
      unfold normalizeT
      simp
    have hu : min 1 (max 0 (normalizeT m (m.startRange.getD 0))) = 0 := by
      rw [hnt]; norm_num
    have hfp : findPair m.controlPoints (min 1 (max 0 (normalizeT m (m.startRange.getD 0)))) =
        some (a, b) := by
      rw [hu]
      exact findPair_at_zero a b rest hhead (by rw [← hhead]; exact le_of_lt hab)
    have := getColorAtPosition_eq_mix m (m.startRange.getD 0) a b a.color.rgb b.color.rgb
      hlen hfp (wf_parse hwfa) (wf_parse (hwf b (by simp [hm])))
    rw [this]
    have hlt : (min 1 (max 0 (normalizeT m (m.startRange.getD 0))) - a.position) /
        (if b.position - a.position = 0 then 1 else b.position - a.position) = 0 := by
      rw [hu, hhead]
      norm_num
    rw [hlt, chromaMix_zero meth _ _ ⟨hwfa.1, hwfa.2.1, hwfa.2.2.1⟩,
      hexToColor_rgbToHexString _ hwfa.1 hwfa.2.1 hwfa.2.2.1]
    simp only [Option.map_some, colorOfRgb]
    rw [← hwfa.2.2.2]
    rfl
  · -- end boundary
    have hq : ∃ q, (a :: b :: rest).getLast? = some q := by
      cases h : (a :: b :: rest).getLast? with
      | none => simp [List.getLast?_eq_none_iff] at h
      | some q => exact ⟨q, rfl⟩
    obtain ⟨q, hq⟩ := hq
    have hqD : (a :: b :: rest).getLastD cpDefault = q := by
      rw [List.getLastD_eq_getLast?, hq]; rfl
    rw [hqD] at hlast ⊢
    have hwfq : WfColor q.color := hwf q (List.mem_of_mem_getLast? hq)
    have hd : m.endRange.getD 1 - m.startRange.getD 0 ≠ 0 := by
      intro h
      exact hrange (sub_eq_zero.mp h).symm
    have hnt : normalizeT m (m.endRange.getD 1) = 1 := by
      show (m.endRange.getD 1 - m.startRange.getD 0) /
          (if m.endRange.getD 1 - m.startRange.getD 0 = 0 then 1
            else m.endRange.getD 1 - m.startRange.getD 0) = 1
      rw [if_neg hd]
      exact div_self hd
    have hu : min 1 (max 0 (normalizeT m (m.endRange.getD 1))) = 1 := by
      rw [hnt]; norm_num
    obtain ⟨p, hfp0, hp1⟩ := findPair_at_one a b rest hsorted q hq hlast
    have hpmem := (findPair_mem _ _ _ _ hfp0).1
    have hwfp : WfColor p.color := hwf p hpmem
    have hfp : findPair m.controlPoints (min 1 (max 0 (normalizeT m (m.endRange.getD 1)))) =
        some (p, q) := by rw [hu]; exact hfp0
    have := getColorAtPosition_eq_mix m (m.endRange.getD 1) p q p.color.rgb q.color.rgb
      hlen hfp (wf_parse hwfp) (wf_parse hwfq)
    rw [this]
    have hne : q.position - p.position ≠ 0 := by rw [hlast]; intro h; linarith
    have hlt : (min 1 (max 0 (normalizeT m (m.endRange.getD 1))) - p.position) /
        (if q.position - p.position = 0 then 1 else q.position - p.position) = 1 := by
      rw [hu, if_neg hne, hlast]
      exact div_self (by rw [hlast] at hne; exact hne)
    rw [hlt, chromaMix_one meth _ _ ⟨hwfq.1, hwfq.2.1, hwfq.2.2.1⟩,
      hexToColor_rgbToHexString _ hwfq.1 hwfq.2.1 hwfq.2.2.1]
    simp only [Option.map_some, colorOfRgb]
    rw [← hwfq.2.2.2]
    rfl

theorem set_get?_self : ∀ (l : List ControlPoint) (i : ℕ) (cp : ControlPoint),
    l.get? i = some cp → l.set i cp = l := by
  intro l
  induction l with
  | nil => intro i cp h; simp at h
  | cons a rest ih =>
    intro i cp h
    cases i with
    | zero =>
      rw [List.get?_cons_zero, Option.some.injEq] at h
      rw [List.set_cons_zero, h]
    | succ n =>
      rw [List.get?_cons_succ] at h
      rw [List.set_cons_succ, ih n cp h]

theorem mem_tiedIndices {cps : List ControlPoint} {p : ℚ} {i : ℕ} :
    i ∈ tiedIndices cps p ↔ ∃ cp, cps.get? i = some cp ∧ cp.position = p := by
  unfold tiedIndices
  simp only [List.mem_map, List.mem_filter]
  constructor
  · rintro ⟨⟨j, cp⟩, ⟨hmem, hpos⟩, rfl⟩
    refine ⟨cp, ?_, by simpa using hpos⟩
    rw [List.get?_eq_getElem?]
    exact List.mem_enum_iff_getElem?.mp hmem
  · rintro ⟨cp, hget, hpos⟩
    refine ⟨(i, cp), ⟨?_, by simpa using hpos⟩, rfl⟩
    rw [List.mem_enum_iff_getElem?]
    rw [List.get?_eq_getElem?] at hget
    exact hget

theorem le_foldl_max : ∀ (l : List ℕ) (a : ℕ), a ≤ l.foldl Nat.max a := by
  intro l
  induction l with
  | nil => intro a; exact le_refl a
  | cons x xs ih => intro a; exact le_trans (Nat.le_max_left a x) (ih (Nat.max a x))

theorem foldl_max_le {l : List ℕ} {i : ℕ} (h : i ∈ l) : ∀ a, i ≤ l.foldl Nat.max a := by
  induction l with
  | nil => simp at h
  | cons x xs ih =>
    intro a
    rcases List.mem_cons.mp h with rfl | h'
    · exact le_trans (Nat.le_max_right a i) (le_foldl_max xs (Nat.max a i))
    · exact ih h' (Nat.max a x)

theorem foldl_min_le_init : ∀ (l : List ℕ) (a : ℕ), l.foldl Nat.min a ≤ a := by
  intro l
  induction l with
  | nil => intro a; exact le_refl a
  | cons x xs ih => intro a; exact le_trans (ih (Nat.min a x)) (Nat.min_le_left a x)

theorem foldl_min_le {l : List ℕ} {i : ℕ} (h : i ∈ l) : ∀ a, l.foldl Nat.min a ≤ i := by
  induction l with
  | nil => simp at h
  | cons x xs ih =>
    intro a
    rcases List.mem_cons.mp h with rfl | h'
    · exact le_trans (foldl_min_le_init xs (Nat.min a i)) (Nat.min_le_right a i)
    · exact ih h' (Nat.min a x)

theorem foldl_max_mem : ∀ (l : List ℕ) (a : ℕ), l.foldl Nat.max a = a ∨ l.foldl Nat.max a ∈ l := by
  intro l
  induction l with
  | nil => intro a; left; rfl
  | cons x xs ih =>
    intro a
    rcases ih (Nat.max a x) with h | h
    · rcases Nat.le_total a x with hax | hax
      · right
        have hmx : Nat.max a x = x := Nat.max_eq_right hax
        show List.foldl Nat.max (Nat.max a x) xs ∈ x :: xs
        rw [hmx] at h ⊢
        rw [h]
        exact List.mem_cons_self x xs
      · left
        have hmx : Nat.max a x = a := Nat.max_eq_left hax
        show List.foldl Nat.max (Nat.max a x) xs = a
        rw [hmx] at h ⊢
        exact h
    · right; exact List.mem_cons_of_mem _ h

theorem foldl_min_mem : ∀ (l : List ℕ) (a : ℕ), l.foldl Nat.min a = a ∨ l.foldl Nat.min a ∈ l := by
  intro l
  induction l with
  | nil => intro a; left; rfl
  | cons x xs ih =>
    intro a
    rcases ih (Nat.min a x) with h | h
    · rcases Nat.le_total a x with hax | hax
      · left
        have hmx : Nat.min a x = a := Nat.min_eq_left hax
        show List.foldl Nat.min (Nat.min a x) xs = a
        rw [hmx] at h ⊢
        exact h
      · right
        have hmx : Nat.min a x = x := Nat.min_eq_right hax
        show List.foldl Nat.min (Nat.min a x) xs ∈ x :: xs
        rw [hmx] at h ⊢
        rw [h]
        exact List.mem_cons_self x xs
    · right; exact List.mem_cons_of_mem _ h

theorem jsMax_mem {l : List ℕ} (h : l ≠ []) : jsMax l ∈ l := by
  cases l with
  | nil => exact absurd rfl h
  | cons x xs =>
    have hx : jsMax (x :: xs) = xs.foldl Nat.max x := by
      show (x :: xs).foldl Nat.max 0 = xs.foldl Nat.max x
      have hz : Nat.max 0 x = x := Nat.zero_max x
      simp only [List.foldl]
      rw [hz]
    rw [hx]
    rcases foldl_max_mem xs x with h' | h'
    · rw [h']; exact List.mem_cons_self x xs
    · exact List.mem_cons_of_mem _ h'

theorem jsMax_ge {l : List ℕ} {i : ℕ} (h : i ∈ l) : i ≤ jsMax l := foldl_max_le h 0

theorem jsMin_mem {l : List ℕ} (h : l ≠ []) : jsMin l ∈ l := by
  cases l with
  | nil => exact absurd rfl h
  | cons x xs =>
    show xs.foldl Nat.min x ∈ x :: xs
    rcases foldl_min_mem xs x with h' | h'
    · rw [h']; exact List.mem_cons_self x xs
    · exact List.mem_cons_of_mem _ h'

theorem jsMin_le {l : List ℕ} {i : ℕ} (h : i ∈ l) : jsMin l ≤ i := by
  cases l with
  | nil => simp at h
  | cons x xs =>
    show xs.foldl Nat.min x ≤ i
    rcases List.mem_cons.mp h with rfl | h'
    · exact foldl_min_le_init xs i
    · exact foldl_min_le h' x

theorem pin_fold_id :
    ∀ (idxs : List ℕ) (cps : List ControlPoint) (p : ℚ) (index : ℕ),
      (∀ i ∈ idxs, ∃ cp, cps.get? i = some cp ∧ cp.position = p) →
      idxs.foldl (fun l i => if i = index then l else setPosition l i p) cps = cps := by
  intro idxs
  induction idxs with
  | nil => intro cps p index _; rfl
  | cons j rest ih =>
    intro cps p index h
    have hstep : (if j = index then cps else setPosition cps j p) = cps := by
      split
      · rfl
      · obtain ⟨cp, hget, hpos⟩ := h j (by simp)
        unfold setPosition
        rw [hget]
        show cps.set j { cp with position := p } = cps
        have : { cp with position := p } = cp := by
          obtain ⟨c, pos⟩ := cp
          simp only at hpos
          rw [hpos]
        rw [this]
        exact set_get?_self cps j cp hget
    show List.foldl _ (if j = index then cps else setPosition cps j p) rest = cps
    rw [hstep]
    exact ih cps p index fun i hi => h i (List.mem_cons_of_mem _ hi)

theorem moveRep_mem (m : ColorMap) (p newPos : ℚ)
    (hne : tiedIndices m.controlPoints p ≠ []) :
    moveRep m p newPos ∈ tiedIndices m.controlPoints p := by
  unfold moveRep
  split
  · exact jsMax_mem hne
  · exact jsMin_mem hne

/-- `movePointRefs` on a pointer-down snapshot of the current map: the pinning
pass is the identity and the update writes only the representative. -/
theorem movePointRefs_eq (m : ColorMap) (p newPos : ℚ)
    (hne : tiedIndices m.controlPoints p ≠ []) :
    movePointRefs m p (tiedIndices m.controlPoints p) newPos =
      (if moveClamped m newPos (moveRep m p newPos) = p then some m
       else some { m with
                   controlPoints := setPosition m.controlPoints (moveRep m p newPos)
                     (moveClamped m newPos (moveRep m p newPos)) }) := by
  obtain ⟨cpr, hget, hpos⟩ := mem_tiedIndices.mp (moveRep_mem m p newPos hne)
  unfold movePointRefs
  dsimp only
  unfold moveRep at *
  set r := (if p < newPos then jsMax (tiedIndices m.controlPoints p)
    else jsMin (tiedIndices m.controlPoints p)) with hr
  have hfold : (tiedIndices m.controlPoints p).foldl
      (fun l i => if i = r then l else setPosition l i p) m.controlPoints =
      m.controlPoints :=
    pin_fold_id _ _ _ _ fun i hi => mem_tiedIndices.mp hi
  rw [hfold, hget]
  dsimp only
  rw [hpos]
  unfold moveClamped
  rfl

theorem get?_lt_length {l : List ControlPoint} {i : ℕ} {cp : ControlPoint}
    (h : l.get? i = some cp) : i < l.length := by
  rw [List.get?_eq_getElem?] at h
  exact (List.getElem?_eq_some_iff.mp h).1

/-- C6 (confirmed): when a drag starts on a position `p` shared by at least two
control points, one Move evaluation picks a single representative of the tied
set — the maximal tied index when the new position exceeds `p`, the minimal one
otherwise — pins every other tied point at `p`, leaves every other index
unchanged, and either sets the representative to its clamped target position or
returns the map unchanged when the clamp lands back on `p`. -/
theorem C6_tied_drag_representative (m : ColorMap) (p newPos : ℚ) (S : List ℕ)
    (hS : S = tiedIndices m.controlPoints p) (hk : 2 ≤ S.length) :
    ∃ m', movePointRefs m p S newPos = some m' ∧
      moveRep m p newPos ∈ S ∧
      (p < newPos → ∀ i ∈ S, i ≤ moveRep m p newPos) ∧
      (¬ p < newPos → ∀ i ∈ S, moveRep m p newPos ≤ i) ∧
      (∀ i ∈ S, i ≠ moveRep m p newPos → posAt? m'.controlPoints i = some p) ∧
      (∀ i, i ≠ moveRep m p newPos → m'.controlPoints.get? i = m.controlPoints.get? i) ∧
      ((m'.controlPoints.get? (moveRep m p newPos)).map (·.position) =
          some (moveClamped m newPos (moveRep m p newPos)) ∨ m' = m) := by
  subst hS
  have hne : tiedIndices m.controlPoints p ≠ [] := by
    intro h; rw [h] at hk; simp at hk
  have hmax : p < newPos → ∀ i ∈ tiedIndices m.controlPoints p, i ≤ moveRep m p newPos := by
    intro hlt i hi
    unfold moveRep
    rw [if_pos hlt]
    exact jsMax_ge hi
  have hmin : ¬ p < newPos → ∀ i ∈ tiedIndices m.controlPoints p, moveRep m p newPos ≤ i := by
    intro hlt i hi
    unfold moveRep
    rw [if_neg hlt]
    exact jsMin_le hi
  obtain ⟨cpr, hgetr, hposr⟩ := mem_tiedIndices.mp (moveRep_mem m p newPos hne)
  rw [movePointRefs_eq m p newPos hne]
  split
  · -- clamped position equals the shared position: previous map returned
    refine ⟨m, rfl, moveRep_mem m p newPos hne, hmax, hmin, ?_, fun i _ => rfl, Or.inr rfl⟩
    intro i hi _
    obtain ⟨cp, hget, hpos⟩ := mem_tiedIndices.mp hi
    unfold posAt?
    rw [hget]
    simp [hpos]
  · next hq =>
    refine ⟨_, rfl, moveRep_mem m p newPos hne, hmax, hmin, ?_, ?_, Or.inl ?_⟩
    · intro i hi hir
      obtain ⟨cp, hget, hpos⟩ := mem_tiedIndices.mp hi
      unfold posAt?
      show ((setPosition m.controlPoints (moveRep m p newPos)
        (moveClamped m newPos (moveRep m p newPos))).get? i).map (·.position) = some p
      unfold setPosition
      rw [hgetr, List.get?_set_ne _ _ (fun h => hir h.symm), hget]
      simp [hpos]
    · intro i hir
      show (setPosition m.controlPoints (moveRep m p newPos)
        (moveClamped m newPos (moveRep m p newPos))).get? i = m.controlPoints.get? i
      unfold setPosition
      rw [hgetr]
      exact List.get?_set_ne _ _ (fun h => hir h.symm)
    · show ((setPosition m.controlPoints (moveRep m p newPos)
        (moveClamped m newPos (moveRep m p newPos))).get? (moveRep m p newPos)).map (·.position) =
        some (moveClamped m newPos (moveRep m p newPos))
      unfold setPosition
      rw [hgetr, List.get?_set_eq_of_lt _ (get?_lt_length hgetr)]
      simp

/-- C10 (confirmed): one Move evaluation preserves the interpolation method,
`startRange`, `endRange`, the number of control points and every control
point's color, and leaves every control point outside the tied set completely
unchanged — only positions of points that shared the pointer-down position can
change. -/
theorem C10_move_frame (m : ColorMap) (p newPos : ℚ) (S : List ℕ)
    (hS : S = tiedIndices m.controlPoints p) (hne : S ≠ []) :
    ∃ m', movePointRefs m p S newPos = some m' ∧
      m'.interpolationMethod = m.interpolationMethod ∧
      m'.startRange = m.startRange ∧
      m'.endRange = m.endRange ∧
      m'.controlPoints.length = m.controlPoints.length ∧
      (∀ i, (m'.controlPoints.get? i).map (·.color) = (m.controlPoints.get? i).map (·.color)) ∧
      (∀ i, i ∉ S → m'.controlPoints.get? i = m.controlPoints.get? i) := by
  subst hS
  obtain ⟨cpr, hgetr, hposr⟩ := mem_tiedIndices.mp (moveRep_mem m p newPos hne)
  rw [movePointRefs_eq m p newPos hne]
  split
  · exact ⟨m, rfl, rfl, rfl, rfl, rfl, fun i => rfl, fun i _ => rfl⟩
  · next hq =>
    have hset : setPosition m.controlPoints (moveRep m p newPos)
        (moveClamped m newPos (moveRep m p newPos)) =
        m.controlPoints.set (moveRep m p newPos)
          { cpr with position := moveClamped m newPos (moveRep m p newPos) } := by
      unfold setPosition
      rw [hgetr]
    refine ⟨_, rfl, rfl, rfl, rfl, ?_, ?_, ?_⟩
    · show (setPosition m.controlPoints (moveRep m p newPos)
        (moveClamped m newPos (moveRep m p newPos))).length = m.controlPoints.length
      rw [hset, List.length_set]
    · intro i
      show ((setPosition m.controlPoints (moveRep m p newPos)
        (moveClamped m newPos (moveRep m p newPos))).get? i).map (·.color) =
        (m.controlPoints.get? i).map (·.color)
      rw [hset]
      by_cases hir : i = moveRep m p newPos
      · subst hir
        rw [List.get?_set_eq_of_lt _ (get?_lt_length hgetr), hgetr]
        simp
      · rw [List.get?_set_ne _ _ (fun h => hir h.symm)]
    · intro i hiS
      have hir : i ≠ moveRep m p newPos := fun h => hiS (h ▸ moveRep_mem m p newPos hne)
      show (setPosition m.controlPoints (moveRep m p newPos)
        (moveClamped m newPos (moveRep m p newPos))).get? i = m.controlPoints.get? i
      rw [hset]
      exact List.get?_set_ne _ _ (fun h => hir h.symm)

theorem sorted_pos_mono {l : List ControlPoint}
    (hs : l.Pairwise fun a b => a.position ≤ b.position)
    {i j : Fin l.length} (hij : (i : ℕ) ≤ (j : ℕ)) :
    (l.get i).position ≤ (l.get j).position := by
  rcases lt_or_eq_of_le hij with h | h
  · exact List.pairwise_iff_get.mp hs i j (Fin.mk_lt_mk.mpr h)
  · rw [Fin.ext h]

theorem pairwise_set {l : List ControlPoint}
    (hs : l.Pairwise fun a b => a.position ≤ b.position) (r : ℕ) (v : ControlPoint)
    (hlo : ∀ j : Fin l.length, (j : ℕ) < r → (l.get j).position ≤ v.position)
    (hhi : ∀ j : Fin l.length, r < (j : ℕ) → v.position ≤ (l.get j).position) :
    (l.set r v).Pairwise fun a b => a.position ≤ b.position := by
  rw [List.pairwise_iff_get] at hs ⊢
  intro i j hij
  have hij' : (i : ℕ) < (j : ℕ) := hij
  have hi' : (i : ℕ) < l.length := by simpa using i.2
  have hj' : (j : ℕ) < l.length := by simpa using j.2
  rw [List.get_set, List.get_set]
  split
  · next hri =>
    split
    · next hrj => exact le_refl _
    · next hrj =>
      exact hhi ⟨j, hj'⟩ (by simp only [Fin.val_mk]; omega)
  · next hri =>
    split
    · next hrj =>
      exact hlo ⟨i, hi'⟩ (by simp only [Fin.val_mk]; omega)
    · next hrj =>
      exact hs ⟨i, hi'⟩ ⟨j, hj'⟩ (by simp only [Fin.mk_lt_mk]; omega)

theorem moveClamped_bounds (m : ColorMap) (newPos : ℚ) (r : ℕ)
    (hr : r < m.controlPoints.length) (hsort : SortedCM m) (hrange : InRange m) :
    (∀ j : Fin m.controlPoints.length, (j : ℕ) < r →
      (m.controlPoints.get j).position ≤ moveClamped m newPos r) ∧
    (∀ j : Fin m.controlPoints.length, r < (j : ℕ) →
      moveClamped m newPos r ≤ (m.controlPoints.get j).position) ∧
    m.startRange.getD 0 ≤ moveClamped m newPos r ∧
    moveClamped m newPos r ≤ m.endRange.getD 1 := by
  obtain ⟨hse, hmem⟩ := hrange
  set s := m.startRange.getD 0
  set e := m.endRange.getD 1
  set cps := m.controlPoints with hcps
  -- characterize minL
  set minL := ((if r = 0 then none else cps.get? (r - 1)).map (·.position)).getD s with hminL
  set maxL := ((cps.get? (r + 1)).map (·.position)).getD e with hmaxL
  have hq : moveClamped m newPos r = max minL (min maxL newPos) := rfl
  have hminL_cases : (r = 0 ∧ minL = s) ∨
      (0 < r ∧ r - 1 < cps.length ∧ ∃ h : r - 1 < cps.length, minL = (cps.get ⟨r - 1, h⟩).position) ∨
      (0 < r ∧ cps.length ≤ r - 1 ∧ minL = s) := by
    by_cases h0 : r = 0
    · left; exact ⟨h0, by rw [hminL, h0]; rfl⟩
    · right
      by_cases hlt : r - 1 < cps.length
      · left
        refine ⟨Nat.pos_of_ne_zero h0, hlt, hlt, ?_⟩
        rw [hminL, if_neg h0, List.get?_eq_get hlt]
        rfl
      · right
        refine ⟨Nat.pos_of_ne_zero h0, le_of_not_lt hlt, ?_⟩
        rw [hminL, if_neg h0, List.get?_eq_none.mpr (le_of_not_lt hlt)]
        rfl
  have hmaxL_cases : (∃ h : r + 1 < cps.length, maxL = (cps.get ⟨r + 1, h⟩).position) ∨
      (cps.length ≤ r + 1 ∧ maxL = e) := by
    by_cases hlt : r + 1 < cps.length
    · left
      refine ⟨hlt, ?_⟩
      rw [hmaxL, List.get?_eq_get hlt]
      rfl
    · right
      refine ⟨le_of_not_lt hlt, ?_⟩
      rw [hmaxL, List.get?_eq_none.mpr (le_of_not_lt hlt)]
      rfl
  have hmem' : ∀ j : Fin cps.length, s ≤ (cps.get j).position ∧ (cps.get j).position ≤ e :=
    fun j => hmem _ (List.get_mem cps j.1 j.2)
  have hminL_lb : s ≤ minL := by
    rcases hminL_cases with ⟨_, h⟩ | ⟨_, _, ⟨h, heq⟩⟩ | ⟨_, _, h⟩
    · rw [h]
    · rw [heq]; exact (hmem' ⟨r - 1, h⟩).1
    · rw [h]
  have hminL_ub : minL ≤ e := by
    rcases hminL_cases with ⟨_, h⟩ | ⟨_, _, ⟨h, heq⟩⟩ | ⟨_, _, h⟩
    · rw [h]; exact hse
    · rw [heq]; exact (hmem' ⟨r - 1, h⟩).2
    · rw [h]; exact hse
  have hmaxL_lb : s ≤ maxL := by
    rcases hmaxL_cases with ⟨h, heq⟩ | ⟨_, h⟩
    · rw [heq]; exact (hmem' ⟨r + 1, h⟩).1
    · rw [h]; exact hse
  have hmaxL_ub : maxL ≤ e := by
    rcases hmaxL_cases with ⟨h, heq⟩ | ⟨_, h⟩
    · rw [heq]; exact (hmem' ⟨r + 1, h⟩).2
    · rw [h]
  have hml : minL ≤ maxL := by
    rcases hminL_cases with ⟨hr0, h1⟩ | ⟨hrpos, _, ⟨h1, heq1⟩⟩ | ⟨_, _, h1⟩
    · rw [h1]; exact hmaxL_lb
    · rcases hmaxL_cases with ⟨h2, heq2⟩ | ⟨_, h2⟩
      · rw [heq1, heq2]
        exact sorted_pos_mono hsort (by simp only [Fin.val_mk]; omega)
      · rw [heq1, h2]; exact (hmem' ⟨r - 1, h1⟩).2
    · rw [h1]; exact hmaxL_lb
  have hq_lb : minL ≤ moveClamped m newPos r := by rw [hq]; exact le_max_left _ _
  have hq_ub : moveClamped m newPos r ≤ maxL := by
    rw [hq]; exact max_le hml (min_le_left _ _)
  refine ⟨?_, ?_, le_trans hminL_lb hq_lb, le_trans hq_ub hmaxL_ub⟩
  · intro j hj
    have h0 : 0 < r := by omega
    rcases hminL_cases with ⟨hr0, _⟩ | ⟨_, _, ⟨h1, heq1⟩⟩ | ⟨_, hbig, _⟩
    · omega
    · refine le_trans ?_ hq_lb
      rw [heq1]
      exact sorted_pos_mono hsort (by simp only [Fin.val_mk]; omega)
    · omega
  · intro j hj
    rcases hmaxL_cases with ⟨h2, heq2⟩ | ⟨hbig, _⟩
    · refine le_trans hq_ub ?_
      rw [heq2]
      exact sorted_pos_mono hsort (by simp only [Fin.val_mk]; omega)
    · have := j.2; omega

theorem moveControlPoint_preserves (m : ColorMap) (i : ℕ) (newPos : ℚ)
    (hsort : SortedCM m) (hrange : InRange m) :
    SortedCM (moveControlPoint m i newPos) ∧ InRange (moveControlPoint m i newPos) ∧
      (moveControlPoint m i newPos).startRange = m.startRange ∧
      (moveControlPoint m i newPos).endRange = m.endRange := by
  cases hget : m.controlPoints.get? i with
  | none =>
    unfold moveControlPoint
    rw [hget]
    exact ⟨hsort, hrange, rfl, rfl⟩
  | some cp =>
    have hne : tiedIndices m.controlPoints cp.position ≠ [] := by
      intro h
      have hmem : i ∈ tiedIndices m.controlPoints cp.position :=
        mem_tiedIndices.mpr ⟨cp, hget, rfl⟩
      rw [h] at hmem
      simp at hmem
    unfold moveControlPoint
    rw [hget]
    dsimp only
    rw [movePointRefs_eq m cp.position newPos hne]
    obtain ⟨cpr, hgetr, hposr⟩ := mem_tiedIndices.mp (moveRep_mem m cp.position newPos hne)
    have hrlt : moveRep m cp.position newPos < m.controlPoints.length := get?_lt_length hgetr
    obtain ⟨hlo, hhi, hqs, hqe⟩ :=
      moveClamped_bounds m newPos (moveRep m cp.position newPos) hrlt hsort hrange
    split
    · exact ⟨hsort, hrange, rfl, rfl⟩
    · next hq =>
      have hset : setPosition m.controlPoints (moveRep m cp.position newPos)
          (moveClamped m newPos (moveRep m cp.position newPos)) =
          m.controlPoints.set (moveRep m cp.position newPos)
            { cpr with position := moveClamped m newPos (moveRep m cp.position newPos) } := by
        unfold setPosition
        rw [hgetr]
      refine ⟨?_, ⟨hrange.1, ?_⟩, rfl, rfl⟩
      · show ((some { m with
            controlPoints := setPosition m.controlPoints (moveRep m cp.position newPos)
              (moveClamped m newPos (moveRep m cp.position newPos)) }).getD m).controlPoints.Pairwise _
        simp only [Option.getD_some]
        rw [hset]
        exact pairwise_set hsort _ _ hlo hhi
      · intro cp' hcp'
        simp only [Option.getD_some] at hcp'
        rw [hset] at hcp'
        rcases List.mem_or_eq_of_mem_set hcp' with h | h
        · exact hrange.2 cp' h
        · rw [h]
          exact ⟨hqs, hqe⟩

theorem spliceAsc_sublist : ∀ (marks : List ℕ) (l : List ControlPoint),
    (spliceAsc l marks).Sublist l := by
  intro marks
  induction marks with
  | nil => intro l; exact List.Sublist.refl l
  | cons i is ih =>
    intro l
    exact (List.eraseIdx_sublist _ i).trans (ih l)

theorem consolidateColorMap_preserves (m : ColorMap)
    (hsort : SortedCM m) (hrange : InRange m) :
    SortedCM (consolidateColorMap m) ∧ InRange (consolidateColorMap m) ∧
      (consolidateColorMap m).startRange = m.startRange ∧
      (consolidateColorMap m).endRange = m.endRange := by
  have hsub : (consolidateColorMap m).controlPoints.Sublist m.controlPoints :=
    spliceAsc_sublist _ _
  exact ⟨hsort.sublist hsub, ⟨hrange.1, fun cp h => hrange.2 cp (hsub.subset h)⟩, rfl, rfl⟩

theorem insert_result_sorted :
    ∀ (l : List ControlPoint) (c : Color) (pos : ℚ),
      (l.Pairwise fun a b => a.position ≤ b.position) →
      ((l.take ((l.findIdx? fun cp => decide (pos < cp.position)).getD l.length) ++
          ⟨c, pos⟩ :: l.drop ((l.findIdx? fun cp => decide (pos < cp.position)).getD l.length))
        |>.Pairwise fun a b => a.position ≤ b.position) := by
  intro l
  induction l with
  | nil =>
    intro c pos _
    simp [List.findIdx?]
  | cons a rest ih =>
    intro c pos hsort
    have hmemArg : ∀ (idx : ℕ), ¬ pos < a.position →
        ∀ y ∈ rest.take idx ++ (⟨c, pos⟩ : ControlPoint) :: rest.drop idx,
          a.position ≤ y.position := by
      intro idx hpa y hy
      rcases List.mem_append.mp hy with hy' | hy'
      · exact (List.pairwise_cons.mp hsort).1 y (List.take_subset _ _ hy')
      · rcases List.mem_cons.mp hy' with rfl | hy''
        · exact le_of_not_lt hpa
        · exact (List.pairwise_cons.mp hsort).1 y (List.drop_subset _ _ hy'')
    rw [List.findIdx?_cons]
    by_cases hpa : pos < a.position
    · rw [decide_eq_true hpa]
      show ((a :: rest).take 0 ++ (⟨c, pos⟩ : ControlPoint) :: (a :: rest).drop 0).Pairwise _
      rw [List.take_zero, List.drop_zero, List.nil_append]
      refine List.Pairwise.cons ?_ hsort
      intro y hy
      rcases List.mem_cons.mp hy with rfl | hy'
      · exact le_of_lt hpa
      · exact le_trans (le_of_lt hpa) ((List.pairwise_cons.mp hsort).1 y hy')
    · rw [decide_eq_false hpa]
      simp only [Bool.false_eq_true, if_false, List.findIdx?_succ]
      have ih' := ih c pos (List.pairwise_cons.mp hsort).2
      cases hfi : rest.findIdx? fun cp => decide (pos < cp.position) with
      | none =>
        rw [hfi] at ih'
        simp only [Option.map_none', Option.getD_none] at ih' ⊢
        show ((a :: rest).take ((a :: rest).length) ++
          (⟨c, pos⟩ : ControlPoint) :: (a :: rest).drop ((a :: rest).length)).Pairwise _
        have hlen : (a :: rest).length = rest.length + 1 := List.length_cons a rest
        rw [hlen, List.take_succ_cons, List.drop_succ_cons, List.cons_append]
        refine List.Pairwise.cons (hmemArg rest.length hpa) ?_
        simpa using ih'
      | some k =>
        rw [hfi] at ih'
        simp only [Option.map_some', Option.getD_some] at ih' ⊢
        show ((a :: rest).take (k + 1) ++
          (⟨c, pos⟩ : ControlPoint) :: (a :: rest).drop (k + 1)).Pairwise _
        rw [List.take_succ_cons, List.drop_succ_cons, List.cons_append]
        refine List.Pairwise.cons (hmemArg k hpa) ?_
        simpa using ih'

theorem insertControlPoint_preserves (m : ColorMap) (pos : ℚ)
    (hsort : SortedCM m) (hrange : InRange m)
    (hin : m.startRange.getD 0 ≤ pos ∧ pos ≤ m.endRange.getD 1) :
    SortedCM (insertControlPoint m pos) ∧ InRange (insertControlPoint m pos) ∧
      (insertControlPoint m pos).startRange = m.startRange ∧
      (insertControlPoint m pos).endRange = m.endRange := by
  unfold insertControlPoint
  cases hc : getColorAtPosition m pos with
  | none => exact ⟨hsort, hrange, rfl, rfl⟩
  | some c =>
    refine ⟨insert_result_sorted m.controlPoints c pos hsort, ⟨hrange.1, ?_⟩, rfl, rfl⟩
    intro cp hcp
    rcases List.mem_append.mp hcp with h | h
    · exact hrange.2 cp (List.take_subset _ _ h)
    · rcases List.mem_cons.mp h with rfl | h'
      · exact hin
      · exact hrange.2 cp (List.drop_subset _ _ h')

theorem applyOp_preserves (m : ColorMap) (op : EditOp)
    (hsort : SortedCM m) (hrange : InRange m)
    (hok : OpOK (m.startRange.getD 0) (m.endRange.getD 1) op) :
    SortedCM (applyOp m op) ∧ InRange (applyOp m op) ∧
      (applyOp m op).startRange = m.startRange ∧ (applyOp m op).endRange = m.endRange := by
  cases op with
  | insert pos => exact insertControlPoint_preserves m pos hsort hrange hok
  | move i newPos => exact moveControlPoint_preserves m i newPos hsort hrange
  | consolidate => exact consolidateColorMap_preserves m hsort hrange

theorem foldl_applyOp_preserves :
    ∀ (ops : List EditOp) (m : ColorMap), SortedCM m → InRange m →
      (∀ op ∈ ops, OpOK (m.startRange.getD 0) (m.endRange.getD 1) op) →
      SortedCM (ops.foldl applyOp m) ∧ InRange (ops.foldl applyOp m) ∧
        (ops.foldl applyOp m).startRange = m.startRange ∧
        (ops.foldl applyOp m).endRange = m.endRange := by
  intro ops
  induction ops with
  | nil => intro m hs hr _; exact ⟨hs, hr, rfl, rfl⟩
  | cons op ops' ih =>
    intro m hs hr hok
    obtain ⟨hs', hr', hsr, her⟩ := applyOp_preserves m op hs hr (hok op (by simp))
    have hok' : ∀ o ∈ ops', OpOK ((applyOp m op).startRange.getD 0)
        ((applyOp m op).endRange.getD 1) o := by
      intro o ho
      rw [hsr, her]
      exact hok o (List.mem_cons_of_mem _ ho)
    obtain ⟨h1, h2, h3, h4⟩ := ih (applyOp m op) hs' hr' hok'
    exact ⟨h1, h2, by rw [List.foldl_cons, h3, hsr], by rw [List.foldl_cons, h4, her]⟩

theorem enum_filter_ne_length :
    ∀ (l : List ControlPoint) (k i : ℕ),
      ((List.enumFrom k l).filter fun x => x.1 ≠ i).length =
        if k ≤ i ∧ i < k + l.length then l.length - 1 else l.length := by
  intro l
  induction l with
  | nil =>
    intro k i
    simp only [List.enumFrom_nil, List.filter_nil, List.length_nil]
    rw [if_neg (by omega)]
  | cons a rest ih =>
    intro k i
    rw [List.enumFrom_cons, List.length_cons]
    by_cases hki : k = i
    · subst hki
      rw [List.filter_cons_of_neg (by simp)]
      rw [ih (k + 1) k, if_neg (by omega), if_pos (by omega)]
      omega
    · rw [List.filter_cons_of_pos (by simp [hki]), List.length_cons, ih (k + 1) i]
      by_cases hin : k + 1 ≤ i ∧ i < k + 1 + rest.length
      · rw [if_pos hin, if_pos (by omega)]
        omega
      · rw [if_neg hin, if_neg (by omega)]

theorem removeControlPoint_length (m : ColorMap) (index : ℕ)
    (h2 : 2 ≤ m.controlPoints.length) (hidx : index < m.controlPoints.length) :
    (removeControlPoint m index).controlPoints.length = m.controlPoints.length - 1 := by
  unfold removeControlPoint
  rw [if_neg (by omega)]
  show ((m.controlPoints.enum.filter fun x => x.1 ≠ index).map (·.2)).length = _
  rw [List.length_map]
  show ((List.enumFrom 0 m.controlPoints).filter fun x => x.1 ≠ index).length = _
  rw [enum_filter_ne_length m.controlPoints 0 index, if_pos (by omega)]

theorem removeControlPoint_of_out_of_range (m : ColorMap) (index : ℕ)
    (hidx : m.controlPoints.length ≤ index) :
    removeControlPoint m index = m := by
  unfold removeControlPoint
  split
  · rfl
  · have hall : (m.controlPoints.enum.filter fun x => x.1 ≠ index) = m.controlPoints.enum := by
      apply List.filter_eq_self.mpr
      intro x hx
      have := List.mem_enum_iff_getElem?.mp hx
      have hlt : x.1 < m.controlPoints.length := (List.getElem?_eq_some_iff.mp this).1
      simp only [ne_eq, decide_eq_true_eq]
      omega
    rw [hall, List.enum_map_snd]

/-- C7 (corrected): with a zero-width range the normalization denominator is
treated as `1`, so no division by zero occurs; but the normalized value is then
`pos - startRange`, which still varies with the query position — not "every
position maps to the same normalized value" as the claim states. -/
theorem C7_degenerate_normalization (m : ColorMap) (pos : ℚ)
    (h : m.startRange.getD 0 = m.endRange.getD 1) :
    normalizeT m pos = pos - m.startRange.getD 0 := by
  have hz : m.endRange.getD 1 - m.startRange.getD 0 = 0 := sub_eq_zero.mpr h.symm
  show (pos - m.startRange.getD 0) /
      (if m.endRange.getD 1 - m.startRange.getD 0 = 0 then 1
        else m.endRange.getD 1 - m.startRange.getD 0) = pos - m.startRange.getD 0
  rw [if_pos hz, div_one]

/-- C8 (confirmed): on a map with an empty control-point list,
`getColorAtPosition` returns the sentinel invalid color
`{rgb := (0,0,0), hsv := (0,0,0), hex := "#000000", isDark := false}` for every
query position, and never throws. -/
theorem C8_empty_invalid (m : ColorMap) (pos : ℚ) (h : m.controlPoints = []) :
    getColorAtPosition m pos =
      some { rgb := ⟨0, 0, 0⟩, hsv := ⟨0, 0, 0⟩, hex := "#000000", isDark := false } := by
  unfold getColorAtPosition
  rw [h]
  rfl

/-- C9 (confirmed): for a serializable map whose color strings all parse,
deserializing and then serializing reproduces the map up to hex
canonicalization of the color strings, with `startRange` defaulting to `0` and
`endRange` to `1` when omitted. -/
theorem C9_serialization_roundtrip (m : ColorMapString)
    (hvalid : ∀ cp ∈ m.controlPoints, (parseHexColor cp.color).isSome) :
    colorMapToColorMapString (colorMapStringToColorMap m) =
      { controlPoints := m.controlPoints.map fun cp =>
          { position := cp.position,
            color := ((parseHexColor cp.color).map rgbToHexString).getD cp.color },
        interpolationMethod := m.interpolationMethod,
        startRange := some (m.startRange.getD 0),
        endRange := some (m.endRange.getD 1) } := by
  unfold colorMapToColorMapString colorMapStringToColorMap
  simp only [List.map_map, ColorMapString.mk.injEq]
  refine ⟨?_, trivial, trivial, trivial⟩
  apply List.map_congr_left
  intro cp hcp
  have hv := hvalid cp hcp
  cases hp : parseHexColor cp.color with
  | none => rw [hp] at hv; simp at hv
  | some rgb =>
    simp only [Function.comp, hp, Option.map_some', Option.getD_some]
    unfold hexToColor
    rw [hp]
    rfl

theorem spliceAsc_map_succ :
    ∀ (ms : List ℕ) (a : ControlPoint) (l : List ControlPoint),
      spliceAsc (a :: l) (ms.map Nat.succ) = a :: spliceAsc l ms := by
  intro ms
  induction ms with
  | nil => intro a l; rfl
  | cons m ms' ih =>
    intro a l
    show (spliceAsc (a :: l) (ms'.map Nat.succ)).eraseIdx (m + 1) = _
    rw [ih a l]
    rfl

theorem spliceAsc_eq_keptList :
    ∀ (l : List ControlPoint) (p : ℕ → Bool),
      spliceAsc l ((List.range l.length).filter p) = keptList l p := by
  intro l
  induction l with
  | nil => intro p; rfl
  | cons a rest ih =>
    intro p
    unfold keptList
    rw [List.length_cons, List.range_succ_eq_map]
    have htail : (((List.range rest.length).map Nat.succ).filter fun i => !p i).map
        (fun i => (a :: rest).getD i cpDefault) =
        keptList rest (p ∘ Nat.succ) := by
      rw [List.map_filter, List.map_map]
      rfl
    by_cases hp0 : p 0
    · rw [List.filter_cons_of_pos (by simpa using hp0),
        List.filter_cons_of_neg (by simp [hp0]), htail, List.map_filter]
      show (spliceAsc (a :: rest)
          (((List.range rest.length).filter (p ∘ Nat.succ)).map Nat.succ)).eraseIdx 0 = _
      rw [spliceAsc_map_succ, List.eraseIdx_cons_zero, ih (p ∘ Nat.succ)]
    · rw [List.filter_cons_of_neg (by simpa using hp0),
        List.filter_cons_of_pos (by simp [hp0]), List.map_cons, htail, List.map_filter]
      rw [spliceAsc_map_succ, ih (p ∘ Nat.succ)]
      rfl

theorem consolidate_controlPoints (m : ColorMap) :
    (consolidateColorMap m).controlPoints =
      keptList m.controlPoints
        (shouldRemove m.controlPoints (m.startRange.getD 0) (m.endRange.getD 1)) := by
  unfold consolidateColorMap
  exact spliceAsc_eq_keptList _ _

theorem keptList_eq_map (l : List ControlPoint) (p : ℕ → Bool) :
    keptList l p = (keptIdx l p).map fun i => l.getD i cpDefault := rfl

theorem mem_keptIdx {l : List ControlPoint} {p : ℕ → Bool} {i : ℕ} :
    i ∈ keptIdx l p ↔ i < l.length ∧ p i = false := by
  simp [keptIdx, List.mem_filter, List.mem_range]

theorem keptIdx_sorted (l : List ControlPoint) (p : ℕ → Bool) :
    (keptIdx l p).Sorted (· < ·) :=
  (List.pairwise_lt_range l.length).filter _

theorem posAt?_eq_some {l : List ControlPoint} {i : ℕ} (h : i < l.length) :
    posAt? l i = some (l.get ⟨i, h⟩).position := by
  unfold posAt?
  rw [List.get?_eq_get h]
  rfl

theorem posAt?_eq_none {l : List ControlPoint} {i : ℕ} (h : l.length ≤ i) :
    posAt? l i = none := by
  unfold posAt?
  rw [List.get?_eq_none.mpr h]
  rfl

theorem sorted_squeeze {l : List ControlPoint}
    (hs : l.Pairwise fun a b => a.position ≤ b.position)
    {a b c : ℕ} (hab : a ≤ b) (hbc : b ≤ c) (ha : a < l.length) (hb : b < l.length)
    (hc : c < l.length)
    (heq : (l.get ⟨a, ha⟩).position = (l.get ⟨c, hc⟩).position) :
    (l.get ⟨b, hb⟩).position = (l.get ⟨a, ha⟩).position := by
  have h1 : (l.get ⟨a, ha⟩).position ≤ (l.get ⟨b, hb⟩).position :=
    sorted_pos_mono hs (by simpa using hab)
  have h2 : (l.get ⟨b, hb⟩).position ≤ (l.get ⟨c, hc⟩).position :=
    sorted_pos_mono hs (by simpa using hbc)
  rw [heq]
  exact le_antisymm h2 (heq ▸ h1)

theorem ite_chain_iff {c1 c2 c3 : Prop} [Decidable c1] [Decidable c2] [Decidable c3] :
    ((if c1 then true else if c2 then true else if c3 then true else false) = true) ↔
      (c1 ∨ c2 ∨ c3) := by
  split_ifs with h1 h2 h3 <;> simp_all

theorem shouldRemove_iff {cps : List ControlPoint} {s e : ℚ} {i : ℕ} {cp : ControlPoint}
    (hget : cps.get? i = some cp) :
    shouldRemove cps s e i = true ↔
      (cp.position = s ∧ posAt? cps (i + 1) = some s) ∨
      (cp.position = e ∧ (if i = 0 then none else posAt? cps (i - 1)) = some e) ∨
      (cp.position ≠ s ∧ cp.position ≠ e ∧
        (if i = 0 then none else posAt? cps (i - 1)) = some cp.position ∧
        posAt? cps (i + 1) = some cp.position) := by
  have hcur : posAt? cps i = some cp.position := by
    unfold posAt?
    rw [hget]
    rfl
  unfold shouldRemove
  rw [hcur]
  exact ite_chain_iff

theorem getD_eq_get {l : List ControlPoint} {i : ℕ} (h : i < l.length) :
    l.getD i cpDefault = l.get ⟨i, h⟩ := by
  rw [List.getD_eq_get?, List.get?_eq_get h]
  rfl

theorem posAt?_some_lt {l : List ControlPoint} {i : ℕ} {x : ℚ} (h : posAt? l i = some x) :
    i < l.length := by
  unfold posAt? at h
  cases hg : l.get? i with
  | none => rw [hg] at h; simp at h
  | some cp => exact get?_lt_length hg

theorem shouldRemove_of_oob {l : List ControlPoint} {s e : ℚ} {i : ℕ} (h : l.length ≤ i) :
    shouldRemove l s e i = false := by
  unfold shouldRemove
  rw [posAt?_eq_none h]

theorem consolidated_no_marks (m : ColorMap) (hsort : SortedCM m) :
    ∀ i, shouldRemove (consolidateColorMap m).controlPoints
      (m.startRange.getD 0) (m.endRange.getD 1) i = false := by
  intro i
  set s := m.startRange.getD 0
  set e := m.endRange.getD 1
  set cps := m.controlPoints with hcps
  set pr := shouldRemove cps s e with hpr
  have hW : (consolidateColorMap m).controlPoints = (keptIdx cps pr).map
      (fun u => cps.getD u cpDefault) := consolidate_controlPoints m
  set K := keptIdx cps pr with hK
  set W := (consolidateColorMap m).controlPoints with hWdef
  have hWlen : W.length = K.length := by rw [hW]; exact List.length_map _ _
  by_cases hi : i < W.length
  swap
  · exact shouldRemove_of_oob (le_of_not_lt hi)
  -- index facts
  have hKmem : ∀ (j : ℕ) (hj : j < K.length), K.get ⟨j, hj⟩ < cps.length ∧
      pr (K.get ⟨j, hj⟩) = false := by
    intro j hj
    exact mem_keptIdx.mp (List.get_mem K j hj)
  have hmono : ∀ (j1 j2 : ℕ) (h1 : j1 < K.length) (h2 : j2 < K.length), j1 < j2 →
      K.get ⟨j1, h1⟩ < K.get ⟨j2, h2⟩ := by
    intro j1 j2 h1 h2 hlt
    exact List.pairwise_iff_get.mp (keptIdx_sorted cps pr) ⟨j1, h1⟩ ⟨j2, h2⟩ hlt
  have hWget : ∀ (j : ℕ) (hj : j < W.length) (hj' : j < K.length),
      W.get ⟨j, hj⟩ = cps.getD (K.get ⟨j, hj'⟩) cpDefault := by
    intro j hj hj'
    rw [List.get_eq_getElem, List.getElem_of_eq hW, List.getElem_map, List.get_eq_getElem]
  -- suppose a rule fires at i in W
  by_contra hcon
  have hsrW : shouldRemove W s e i = true := by
    cases h : shouldRemove W s e i with
    | false => exact absurd h hcon
    | true => rfl
  have hiK : i < K.length := hWlen ▸ hi
  set u := K.get ⟨i, hiK⟩ with hu
  have hulen : u < cps.length := (hKmem i hiK).1
  have hukept : pr u = false := (hKmem i hiK).2
  have hWgeti : W.get? i = some (W.get ⟨i, hi⟩) := List.get?_eq_get hi
  have hWi : W.get ⟨i, hi⟩ = cps.get ⟨u, hulen⟩ := by
    rw [hWget i hi hiK, getD_eq_get hulen]
  rw [shouldRemove_iff hWgeti] at hsrW
  have hgetu : cps.get? u = some (cps.get ⟨u, hulen⟩) := List.get?_eq_get hulen
  rcases hsrW with ⟨hq, hnext⟩ | ⟨hq, hprev⟩ | ⟨hq1, hq2, hprev, hnext⟩
  · -- rule 1 fired in W: duplicate at startRange
    have hi1 : i + 1 < W.length := posAt?_some_lt hnext
    have hi1K : i + 1 < K.length := hWlen ▸ hi1
    set v := K.get ⟨i + 1, hi1K⟩ with hv
    have hvlen : v < cps.length := (hKmem (i + 1) hi1K).1
    have huv : u < v := hmono i (i + 1) hiK hi1K (by omega)
    have hposv : (cps.get ⟨v, hvlen⟩).position = s := by
      rw [posAt?_eq_some hi1] at hnext
      have := Option.some.inj hnext
      rw [← this, hWget (i + 1) hi1 hi1K, getD_eq_get hvlen]
    have hposu : (cps.get ⟨u, hulen⟩).position = s := by rw [← hWi]; exact hq
    have hsu : u + 1 < cps.length := by omega
    have hpos_next : (cps.get ⟨u + 1, hsu⟩).position = s := by
      rw [← hposu]
      exact sorted_squeeze hsort (by omega) (by omega) hulen hsu hvlen (hposu.trans hposv.symm)
    have : pr u = true := by
      rw [hpr, shouldRemove_iff hgetu]
      exact Or.inl ⟨hposu, by rw [posAt?_eq_some hsu, hpos_next]⟩
    rw [hukept] at this
    exact absurd this (by simp)
  · -- rule 2 fired in W: duplicate at endRange
    have hi0 : i ≠ 0 := by
      intro h
      rw [if_pos h] at hprev
      simp at hprev
    rw [if_neg hi0] at hprev
    have him1 : i - 1 < W.length := by omega
    have him1K : i - 1 < K.length := hWlen ▸ him1
    set w := K.get ⟨i - 1, him1K⟩ with hw
    have hwlen : w < cps.length := (hKmem (i - 1) him1K).1
    have hwu : w < u := hmono (i - 1) i him1K hiK (by omega)
    have hposw : (cps.get ⟨w, hwlen⟩).position = e := by
      rw [posAt?_eq_some him1] at hprev
      have := Option.some.inj hprev
      rw [← this, hWget (i - 1) him1 him1K, getD_eq_get hwlen]
    have hposu : (cps.get ⟨u, hulen⟩).position = e := by rw [← hWi]; exact hq
    have hpu : u - 1 < cps.length := by omega
    have hpos_prev : (cps.get ⟨u - 1, hpu⟩).position = e := by
      have := sorted_squeeze hsort (show w ≤ u - 1 by omega) (show u - 1 ≤ u by omega)
        hwlen hpu hulen (hposw.trans hposu.symm)
      rw [this, hposw]
    have hu0 : u ≠ 0 := by omega
    have : pr u = true := by
      rw [hpr, shouldRemove_iff hgetu]
      refine Or.inr (Or.inl ⟨hposu, ?_⟩)
      rw [if_neg hu0, posAt?_eq_some hpu, hpos_prev]
    rw [hukept] at this
    exact absurd this (by simp)
  · -- rule 3 fired in W: interior triple
    have hi0 : i ≠ 0 := by
      intro h
      rw [if_pos h] at hprev
      simp at hprev
    rw [if_neg hi0] at hprev
    have hi1 : i + 1 < W.length := posAt?_some_lt hnext
    have hi1K : i + 1 < K.length := hWlen ▸ hi1
    have him1 : i - 1 < W.length := by omega
    have him1K : i - 1 < K.length := hWlen ▸ him1
    set v := K.get ⟨i + 1, hi1K⟩ with hv
    set w := K.get ⟨i - 1, him1K⟩ with hw
    have hvlen : v < cps.length := (hKmem (i + 1) hi1K).1
    have hwlen : w < cps.length := (hKmem (i - 1) him1K).1
    have huv : u < v := hmono i (i + 1) hiK hi1K (by omega)
    have hwu : w < u := hmono (i - 1) i him1K hiK (by omega)
    set q := (W.get ⟨i, hi⟩).position with hqdef
    have hposu : (cps.get ⟨u, hulen⟩).position = q := by rw [← hWi]
    have hposv : (cps.get ⟨v, hvlen⟩).position = q := by
      rw [posAt?_eq_some hi1] at hnext
      have := Option.some.inj hnext
      rw [← this, hWget (i + 1) hi1 hi1K, getD_eq_get hvlen]
    have hposw : (cps.get ⟨w, hwlen⟩).position = q := by
      rw [posAt?_eq_some him1] at hprev
      have := Option.some.inj hprev
      rw [← this, hWget (i - 1) him1 him1K, getD_eq_get hwlen]
    have hsu : u + 1 < cps.length := by omega
    have hpu : u - 1 < cps.length := by omega
    have hpos_next : (cps.get ⟨u + 1, hsu⟩).position = q := by
      have := sorted_squeeze hsort (show u ≤ u + 1 by omega) (show u + 1 ≤ v by omega)
        hulen hsu hvlen (hposu.trans hposv.symm)
      rw [this, hposu]
    have hpos_prev : (cps.get ⟨u - 1, hpu⟩).position = q := by
      have := sorted_squeeze hsort (show w ≤ u - 1 by omega) (show u - 1 ≤ u by omega)
        hwlen hpu hulen (hposw.trans hposu.symm)
      rw [this, hposw]
    have hu0 : u ≠ 0 := by omega
    have : pr u = true := by
      rw [hpr, shouldRemove_iff hgetu]
      refine Or.inr (Or.inr ⟨by rw [hposu]; exact hq1, by rw [hposu]; exact hq2, ?_, ?_⟩)
      · rw [if_neg hu0, posAt?_eq_some hpu, hpos_prev, hposu]
      · rw [posAt?_eq_some hsu, hpos_next, hposu]
    rw [hukept] at this
    exact absurd this (by simp)

/-- C4 (corrected): consolidation is idempotent on every map whose control
points are non-decreasing in position; on unsorted maps (which the editor never
produces but the claim quantifies over) idempotence fails. -/
theorem C4_consolidate_idempotent (m : ColorMap) (hsort : SortedCM m) :
    consolidateColorMap (consolidateColorMap m) = consolidateColorMap m := by
  have hall := consolidated_no_marks m hsort
  show { consolidateColorMap m with
         controlPoints := spliceAsc (consolidateColorMap m).controlPoints
           ((List.range (consolidateColorMap m).controlPoints.length).filter
             (shouldRemove (consolidateColorMap m).controlPoints
               (m.startRange.getD 0) (m.endRange.getD 1))) } = consolidateColorMap m
  have hmarks : (List.range (consolidateColorMap m).controlPoints.length).filter
      (shouldRemove (consolidateColorMap m).controlPoints
        (m.startRange.getD 0) (m.endRange.getD 1)) = [] := by
    apply List.filter_eq_nil.mpr
    intro a _
    rw [hall a]
    simp
  rw [hmarks]
  show ({ controlPoints := (consolidateColorMap m).controlPoints,
          interpolationMethod := (consolidateColorMap m).interpolationMethod,
          startRange := (consolidateColorMap m).startRange,
          endRange := (consolidateColorMap m).endRange } : ColorMap) = consolidateColorMap m
  rfl

theorem filter_idx_view :
    ∀ (l : List ControlPoint) (P : ControlPoint → Bool),
      l.filter P = ((List.range l.length).filter fun i => P (l.getD i cpDefault)).map
        (fun i => l.getD i cpDefault) := by
  intro l
  induction l with
  | nil => intro P; rfl
  | cons a rest ih =>
    intro P
    rw [List.length_cons, List.range_succ_eq_map]
    have hshift : (((List.range rest.length).map Nat.succ).filter
        fun i => P ((a :: rest).getD i cpDefault)).map (fun i => (a :: rest).getD i cpDefault) =
        ((List.range rest.length).filter fun i => P (rest.getD i cpDefault)).map
          (fun i => rest.getD i cpDefault) := by
      rw [List.map_filter, List.map_map]
      rfl
    by_cases hPa : P a
    · rw [List.filter_cons_of_pos (by simpa using hPa),
        List.filter_cons_of_pos (by simpa using hPa), List.map_cons, hshift, ih P]
      rfl
    · rw [List.filter_cons_of_neg (by simpa using hPa),
        List.filter_cons_of_neg (by simpa using hPa), hshift, ih P]

theorem sorted_le_head : ∀ (R : List ℕ), R.Sorted (· < ·) → ∀ (hne : R ≠ []) (i : ℕ), i ∈ R →
    R.head hne ≤ i := by
  intro R hR hne i hi
  cases R with
  | nil => exact absurd rfl hne
  | cons x rest =>
    rcases List.mem_cons.mp hi with rfl | h
    · exact le_refl i
    · exact le_of_lt ((List.pairwise_cons.mp hR).1 i h)

theorem sorted_le_getLast : ∀ (R : List ℕ), R.Sorted (· < ·) → ∀ (hne : R ≠ []) (i : ℕ),
    i ∈ R → i ≤ R.getLast hne := by
  intro R
  induction R with
  | nil => intro _ hne; exact absurd rfl hne
  | cons x rest ih =>
    intro hR hne i hi
    cases rest with
    | nil =>
      rcases List.mem_cons.mp hi with rfl | h
      · exact le_refl i
      · simp at h
    | cons y rest' =>
      rw [List.getLast_cons (by simp)]
      rcases List.mem_cons.mp hi with rfl | h
      · have hlast : (y :: rest').getLast (by simp) ∈ y :: rest' := List.getLast_mem _
        exact le_of_lt ((List.pairwise_cons.mp hR).1 _ hlast)
      · exact ih (List.pairwise_cons.mp hR).2 (by simp) i h

theorem filter_eq_getLast (R : List ℕ) (hR : R.Sorted (· < ·)) (hne : R ≠ []) (Q : ℕ → Bool)
    (hQ : ∀ i ∈ R, (Q i = true ↔ i = R.getLast hne)) : R.filter Q = [R.getLast hne] := by
  induction R with
  | nil => exact absurd rfl hne
  | cons x rest ih =>
    cases rest with
    | nil =>
      have hx : Q x = true := (hQ x (by simp)).mpr (by simp [List.getLast])
      rw [List.filter_cons_of_pos hx]
      rfl
    | cons y rest' =>
      have hlast_eq : (x :: y :: rest').getLast hne = (y :: rest').getLast (by simp) :=
        List.getLast_cons (by simp)
      have hxlast : x ≠ (x :: y :: rest').getLast hne := by
        rw [hlast_eq]
        have hlast_mem : (y :: rest').getLast (by simp) ∈ y :: rest' := List.getLast_mem _
        have := (List.pairwise_cons.mp hR).1 _ hlast_mem
        omega
      have hx : Q x = false := by
        cases hq : Q x with
        | false => rfl
        | true => exact absurd ((hQ x (by simp)).mp hq) hxlast
      rw [List.filter_cons_of_neg (by simp [hx])]
      rw [ih (List.pairwise_cons.mp hR).2 (by simp) ?_]
      · rw [hlast_eq]
      · intro i hi
        rw [← hlast_eq]
        exact hQ i (List.mem_cons_of_mem _ hi)

theorem filter_eq_head (R : List ℕ) (hR : R.Sorted (· < ·)) (hne : R ≠ []) (Q : ℕ → Bool)
    (hQ : ∀ i ∈ R, (Q i = true ↔ i = R.head hne)) : R.filter Q = [R.head hne] := by
  cases R with
  | nil => exact absurd rfl hne
  | cons x rest =>
    have hx : Q x = true := (hQ x (by simp)).mpr rfl
    rw [List.filter_cons_of_pos hx]
    have hrest : rest.filter Q = [] := by
      apply List.filter_eq_nil.mpr
      intro i hi
      intro hq
      have := (hQ i (List.mem_cons_of_mem _ hi)).mp hq
      have hlt := (List.pairwise_cons.mp hR).1 i hi
      simp only [List.head_cons] at this
      omega
    rw [hrest]
    rfl

theorem filter_eq_head_last (R : List ℕ) (hR : R.Sorted (· < ·)) (hne : R ≠ []) (Q : ℕ → Bool)
    (hQ : ∀ i ∈ R, (Q i = true ↔ (i = R.head hne ∨ i = R.getLast hne))) :
    R.filter Q = if R.length ≤ 2 then R else [R.head hne, R.getLast hne] := by
  cases R with
  | nil => exact absurd rfl hne
  | cons x rest =>
    cases rest with
    | nil =>
      rw [if_pos (by simp)]
      have hx : Q x = true := (hQ x (by simp)).mpr (Or.inl rfl)
      rw [List.filter_cons_of_pos hx]
      rfl
    | cons y rest' =>
      cases rest' with
      | nil =>
        rw [if_pos (by simp)]
        have hx : Q x = true := (hQ x (by simp)).mpr (Or.inl rfl)
        have hy : Q y = true := (hQ y (by simp)).mpr (Or.inr (by simp [List.getLast]))
        rw [List.filter_cons_of_pos hx, List.filter_cons_of_pos hy]
        rfl
      | cons z rest'' =>
        rw [if_neg (by simp)]
        have hx : Q x = true := (hQ x (by simp)).mpr (Or.inl rfl)
        rw [List.filter_cons_of_pos hx]
        have hlast_eq : (x :: y :: z :: rest'').getLast hne =
            (y :: z :: rest'').getLast (by simp) := List.getLast_cons (by simp)
        have htail : (y :: z :: rest'').filter Q = [(y :: z :: rest'').getLast (by simp)] := by
          apply filter_eq_getLast _ (List.pairwise_cons.mp hR).2 (by simp)
          intro i hi
          constructor
          · intro hq
            rcases (hQ i (List.mem_cons_of_mem _ hi)).mp hq with h | h
            · exfalso
              have := (List.pairwise_cons.mp hR).1 i hi
              simp only [List.head_cons] at h
              omega
            · rw [h, hlast_eq]
          · intro h
            apply (hQ i (List.mem_cons_of_mem _ hi)).mpr
            right
            rw [hlast_eq]
            exact h
        rw [htail, hlast_eq]
        rfl

theorem mem_runIdx {cps : List ControlPoint} {q : ℚ} {i : ℕ} :
    i ∈ runIdx cps q ↔ i < cps.length ∧ (cps.getD i cpDefault).position = q := by
  simp [runIdx, List.mem_filter, List.mem_range]

theorem runIdx_sorted (cps : List ControlPoint) (q : ℚ) : (runIdx cps q).Sorted (· < ·) :=
  (List.pairwise_lt_range cps.length).filter _

theorem start_run_kept (cps : List ControlPoint) (s e : ℚ)
    (hsort : cps.Pairwise fun a b => a.position ≤ b.position) (hse : s ≠ e)
    (hR : runIdx cps s ≠ []) :
    ∀ i ∈ runIdx cps s,
      ((!shouldRemove cps s e i) = true ↔ i = (runIdx cps s).getLast hR) := by
  intro i hi
  obtain ⟨hin, hpos⟩ := mem_runIdx.mp hi
  have hgeti : cps.get? i = some (cps.get ⟨i, hin⟩) := List.get?_eq_get hin
  have hposi : (cps.get ⟨i, hin⟩).position = s := by rw [← getD_eq_get hin]; exact hpos
  have hLmem : (runIdx cps s).getLast hR ∈ runIdx cps s := List.getLast_mem hR
  obtain ⟨hLn, hLpos⟩ := mem_runIdx.mp hLmem
  have hLpos' : (cps.get ⟨(runIdx cps s).getLast hR, hLn⟩).position = s := by
    rw [← getD_eq_get hLn]; exact hLpos
  constructor
  · intro hkept
    by_contra hne'
    have hile : i ≤ (runIdx cps s).getLast hR := sorted_le_getLast _ (runIdx_sorted cps s) hR i hi
    have hilt : i < (runIdx cps s).getLast hR := lt_of_le_of_ne hile hne'
    have hsucc : i + 1 < cps.length := by omega
    have hpos_next : (cps.get ⟨i + 1, hsucc⟩).position = s := by
      have := sorted_squeeze hsort (show i ≤ i + 1 by omega)
        (show i + 1 ≤ (runIdx cps s).getLast hR by omega) hin hsucc hLn
        (hposi.trans hLpos'.symm)
      rw [this, hposi]
    have hpr : shouldRemove cps s e i = true := by
      rw [shouldRemove_iff hgeti]
      exact Or.inl ⟨hposi, by rw [posAt?_eq_some hsucc, hpos_next]⟩
    rw [hpr] at hkept
    simp at hkept
  · intro hiL
    have hfalse : shouldRemove cps s e i = false := by
      cases hp : shouldRemove cps s e i with
      | false => rfl
      | true =>
        rw [shouldRemove_iff hgeti] at hp
        rcases hp with ⟨_, hnext⟩ | ⟨hpe, _⟩ | ⟨hq1, _⟩
        · have hlt1 : i + 1 < cps.length := posAt?_some_lt hnext
          have hpn : (cps.get ⟨i + 1, hlt1⟩).position = s := by
            rw [posAt?_eq_some hlt1] at hnext
            exact Option.some.inj hnext
          have hmem1 : i + 1 ∈ runIdx cps s :=
            mem_runIdx.mpr ⟨hlt1, by rw [getD_eq_get hlt1]; exact hpn⟩
          have hle := sorted_le_getLast _ (runIdx_sorted cps s) hR (i + 1) hmem1
          rw [← hiL] at hle
          omega
        · rw [hposi] at hpe
          exact absurd hpe hse
        · exact absurd hposi hq1
    rw [hfalse]
    rfl

theorem end_run_kept (cps : List ControlPoint) (s e : ℚ)
    (hsort : cps.Pairwise fun a b => a.position ≤ b.position) (hse : s ≠ e)
    (hR : runIdx cps e ≠ []) :
    ∀ i ∈ runIdx cps e,
      ((!shouldRemove cps s e i) = true ↔ i = (runIdx cps e).head hR) := by
  intro i hi
  obtain ⟨hin, hpos⟩ := mem_runIdx.mp hi
  have hgeti : cps.get? i = some (cps.get ⟨i, hin⟩) := List.get?_eq_get hin
  have hposi : (cps.get ⟨i, hin⟩).position = e := by rw [← getD_eq_get hin]; exact hpos
  have hHmem : (runIdx cps e).head hR ∈ runIdx cps e := List.head_mem hR
  obtain ⟨hHn, hHpos⟩ := mem_runIdx.mp hHmem
  have hHpos' : (cps.get ⟨(runIdx cps e).head hR, hHn⟩).position = e := by
    rw [← getD_eq_get hHn]; exact hHpos
  constructor
  · intro hkept
    by_contra hne'
    have hhle : (runIdx cps e).head hR ≤ i := sorted_le_head _ (runIdx_sorted cps e) hR i hi
    have hhlt : (runIdx cps e).head hR < i := lt_of_le_of_ne hhle fun h => hne' h.symm
    have hpred : i - 1 < cps.length := by omega
    have hpos_prev : (cps.get ⟨i - 1, hpred⟩).position = e := by
      have := sorted_squeeze hsort (show (runIdx cps e).head hR ≤ i - 1 by omega)
        (show i - 1 ≤ i by omega) hHn hpred hin (hHpos'.trans hposi.symm)
      rw [this, hHpos']
    have hi0 : i ≠ 0 := by omega
    have hpr : shouldRemove cps s e i = true := by
      rw [shouldRemove_iff hgeti]
      refine Or.inr (Or.inl ⟨hposi, ?_⟩)
      rw [if_neg hi0, posAt?_eq_some hpred, hpos_prev]
    rw [hpr] at hkept
    simp at hkept
  · intro hiH
    have hfalse : shouldRemove cps s e i = false := by
      cases hp : shouldRemove cps s e i with
      | false => rfl
      | true =>
        rw [shouldRemove_iff hgeti] at hp
        rcases hp with ⟨hps, _⟩ | ⟨_, hprev⟩ | ⟨_, hq2, _⟩
        · rw [hposi] at hps
          exact absurd hps.symm hse
        · have hi0 : i ≠ 0 := by
            intro h
            rw [if_pos h] at hprev
            simp at hprev
          rw [if_neg hi0] at hprev
          have hlt1 : i - 1 < cps.length := posAt?_some_lt hprev
          have hpn : (cps.get ⟨i - 1, hlt1⟩).position = e := by
            rw [posAt?_eq_some hlt1] at hprev
            exact Option.some.inj hprev
          have hmem1 : i - 1 ∈ runIdx cps e :=
            mem_runIdx.mpr ⟨hlt1, by rw [getD_eq_get hlt1]; exact hpn⟩
          have hle := sorted_le_head _ (runIdx_sorted cps e) hR (i - 1) hmem1
          rw [← hiH] at hle
          omega
        · exact absurd hposi hq2
    rw [hfalse]
    rfl

theorem interior_run_kept (cps : List ControlPoint) (s e q : ℚ)
    (hsort : cps.Pairwise fun a b => a.position ≤ b.position) (hqs : q ≠ s) (hqe : q ≠ e)
    (hR : runIdx cps q ≠ []) :
    ∀ i ∈ runIdx cps q,
      ((!shouldRemove cps s e i) = true ↔
        (i = (runIdx cps q).head hR ∨ i = (runIdx cps q).getLast hR)) := by
  intro i hi
  obtain ⟨hin, hpos⟩ := mem_runIdx.mp hi
  have hgeti : cps.get? i = some (cps.get ⟨i, hin⟩) := List.get?_eq_get hin
  have hposi : (cps.get ⟨i, hin⟩).position = q := by rw [← getD_eq_get hin]; exact hpos
  have hHmem : (runIdx cps q).head hR ∈ runIdx cps q := List.head_mem hR
  have hLmem : (runIdx cps q).getLast hR ∈ runIdx cps q := List.getLast_mem hR
  obtain ⟨hHn, hHpos⟩ := mem_runIdx.mp hHmem
  obtain ⟨hLn, hLpos⟩ := mem_runIdx.mp hLmem
  have hHpos' : (cps.get ⟨(runIdx cps q).head hR, hHn⟩).position = q := by
    rw [← getD_eq_get hHn]; exact hHpos
  have hLpos' : (cps.get ⟨(runIdx cps q).getLast hR, hLn⟩).position = q := by
    rw [← getD_eq_get hLn]; exact hLpos
  constructor
  · intro hkept
    by_contra hne'
    push_neg at hne'
    have hhlt : (runIdx cps q).head hR < i :=
      lt_of_le_of_ne (sorted_le_head _ (runIdx_sorted cps q) hR i hi)
        fun h => hne'.1 h.symm
    have hilt : i < (runIdx cps q).getLast hR :=
      lt_of_le_of_ne (sorted_le_getLast _ (runIdx_sorted cps q) hR i hi) hne'.2
    have hpred : i - 1 < cps.length := by omega
    have hsucc : i + 1 < cps.length := by omega
    have hpos_prev : (cps.get ⟨i - 1, hpred⟩).position = q := by
      have := sorted_squeeze hsort (show (runIdx cps q).head hR ≤ i - 1 by omega)
        (show i - 1 ≤ i by omega) hHn hpred hin (hHpos'.trans hposi.symm)
      rw [this, hHpos']
    have hpos_next : (cps.get ⟨i + 1, hsucc⟩).position = q := by
      have := sorted_squeeze hsort (show i ≤ i + 1 by omega)
        (show i + 1 ≤ (runIdx cps q).getLast hR by omega) hin hsucc hLn
        (hposi.trans hLpos'.symm)
      rw [this, hposi]
    have hi0 : i ≠ 0 := by omega
    have hpr : shouldRemove cps s e i = true := by
      rw [shouldRemove_iff hgeti]
      refine Or.inr (Or.inr ⟨by rw [hposi]; exact hqs, by rw [hposi]; exact hqe, ?_, ?_⟩)
      · rw [if_neg hi0, posAt?_eq_some hpred, hpos_prev, hposi]
      · rw [posAt?_eq_some hsucc, hpos_next, hposi]
    rw [hpr] at hkept
    simp at hkept
  · intro hiHL
    have hfalse : shouldRemove cps s e i = false := by
      cases hp : shouldRemove cps s e i with
      | false => rfl
      | true =>
        rw [shouldRemove_iff hgeti] at hp
        rcases hp with ⟨hps, _⟩ | ⟨hpe, _⟩ | ⟨_, _, hprev, hnext⟩
        · rw [hposi] at hps
          exact absurd hps hqs
        · rw [hposi] at hpe
          exact absurd hpe hqe
        · rcases hiHL with hiH | hiL
          · have hi0 : i ≠ 0 := by
              intro h
              rw [if_pos h] at hprev
              simp at hprev
            rw [if_neg hi0] at hprev
            have hlt1 : i - 1 < cps.length := posAt?_some_lt hprev
            have hpn : (cps.get ⟨i - 1, hlt1⟩).position = q := by
              rw [posAt?_eq_some hlt1] at hprev
              have := Option.some.inj hprev
              rw [this, hposi]
            have hmem1 : i - 1 ∈ runIdx cps q :=
              mem_runIdx.mpr ⟨hlt1, by rw [getD_eq_get hlt1]; exact hpn⟩
            have hle := sorted_le_head _ (runIdx_sorted cps q) hR (i - 1) hmem1
            rw [← hiH] at hle
            omega
          · have hlt1 : i + 1 < cps.length := posAt?_some_lt hnext
            have hpn : (cps.get ⟨i + 1, hlt1⟩).position = q := by
              rw [posAt?_eq_some hlt1] at hnext
              have := Option.some.inj hnext
              rw [this, hposi]
            have hmem1 : i + 1 ∈ runIdx cps q :=
              mem_runIdx.mpr ⟨hlt1, by rw [getD_eq_get hlt1]; exact hpn⟩
            have hle := sorted_le_getLast _ (runIdx_sorted cps q) hR (i + 1) hmem1
            rw [← hiL] at hle
            omega
    rw [hfalse]
    rfl

theorem filter_pos_runIdx (cps : List ControlPoint) (q : ℚ) :
    cps.filter (fun cp => decide (cp.position = q)) =
      (runIdx cps q).map fun i => cps.getD i cpDefault :=
  filter_idx_view cps _

theorem consolidate_filter_runIdx (m : ColorMap) (q : ℚ) :
    (consolidateColorMap m).controlPoints.filter (fun cp => decide (cp.position = q)) =
      ((runIdx m.controlPoints q).filter
        fun i => !shouldRemove m.controlPoints (m.startRange.getD 0) (m.endRange.getD 1) i).map
        fun i => m.controlPoints.getD i cpDefault := by
  rw [consolidate_controlPoints, keptList_eq_map, List.map_filter]
  congr 1
  show ((List.range m.controlPoints.length).filter _).filter _ = _
  rw [List.filter_comm]
  rfl

theorem consolidate_filter_start (m : ColorMap) (hsort : SortedCM m)
    (hse : m.startRange.getD 0 ≠ m.endRange.getD 1) :
    (consolidateColorMap m).controlPoints.filter
        (fun cp => decide (cp.position = m.startRange.getD 0)) =
      ((m.controlPoints.filter fun cp =>
        decide (cp.position = m.startRange.getD 0)).getLast?).toList := by
  rw [consolidate_filter_runIdx, filter_pos_runIdx]
  cases hRe : runIdx m.controlPoints (m.startRange.getD 0) with
  | nil => rfl
  | cons x rest =>
    have hne : runIdx m.controlPoints (m.startRange.getD 0) ≠ [] := by rw [hRe]; simp
    rw [← hRe]
    rw [filter_eq_getLast _ (runIdx_sorted _ _) hne _
      (start_run_kept m.controlPoints _ _ hsort hse hne)]
    rw [List.getLast?_map, List.getLast?_eq_getLast _ hne]
    rfl

theorem consolidate_filter_end (m : ColorMap) (hsort : SortedCM m)
    (hse : m.startRange.getD 0 ≠ m.endRange.getD 1) :
    (consolidateColorMap m).controlPoints.filter
        (fun cp => decide (cp.position = m.endRange.getD 1)) =
      ((m.controlPoints.filter fun cp =>
        decide (cp.position = m.endRange.getD 1)).head?).toList := by
  rw [consolidate_filter_runIdx, filter_pos_runIdx]
  cases hRe : runIdx m.controlPoints (m.endRange.getD 1) with
  | nil => rfl
  | cons x rest =>
    have hne : runIdx m.controlPoints (m.endRange.getD 1) ≠ [] := by rw [hRe]; simp
    rw [← hRe]
    rw [filter_eq_head _ (runIdx_sorted _ _) hne _
      (end_run_kept m.controlPoints _ _ hsort hse hne)]
    rw [List.head?_map, List.head?_eq_head hne]
    rfl

theorem consolidate_filter_interior (m : ColorMap) (hsort : SortedCM m) (q : ℚ)
    (hqs : q ≠ m.startRange.getD 0) (hqe : q ≠ m.endRange.getD 1) :
    (consolidateColorMap m).controlPoints.filter (fun cp => decide (cp.position = q)) =
      (if (m.controlPoints.filter fun cp => decide (cp.position = q)).length ≤ 2
       then m.controlPoints.filter fun cp => decide (cp.position = q)
       else ((m.controlPoints.filter fun cp => decide (cp.position = q)).head?).toList ++
         ((m.controlPoints.filter fun cp => decide (cp.position = q)).getLast?).toList) := by
  rw [consolidate_filter_runIdx, filter_pos_runIdx]
  cases hRe : runIdx m.controlPoints q with
  | nil => rfl
  | cons x rest =>
    have hne : runIdx m.controlPoints q ≠ [] := by rw [hRe]; simp
    rw [← hRe]
    rw [filter_eq_head_last _ (runIdx_sorted _ _) hne _
      (interior_run_kept m.controlPoints _ _ q hsort hqs hqe hne)]
    rw [List.length_map]
    split
    · rfl
    · rw [List.head?_map, List.getLast?_map, List.head?_eq_head hne,
        List.getLast?_eq_getLast _ hne]
      rfl

/-- C2 (corrected): on a sorted map that also satisfies the data-model range
invariant, every Insert at an in-range position, every Move, and Consolidate
preserve sortedness and the range invariant; hence after any sequence of such
operations `controlPoints` stays non-decreasing in position.  As stated
(sortedness alone, over arbitrary maps) the claim fails: Move clamps the target
into `[startRange, nextPosition]`, which breaks sortedness when control-point
positions lie outside the declared range. -/
theorem C2_monotonic_ordering (m : ColorMap) (hsort : SortedCM m) (hrange : InRange m) :
    (∀ op, OpOK (m.startRange.getD 0) (m.endRange.getD 1) op →
      SortedCM (applyOp m op) ∧ InRange (applyOp m op)) ∧
    (∀ ops : List EditOp, (∀ op ∈ ops, OpOK (m.startRange.getD 0) (m.endRange.getD 1) op) →
      SortedCM (ops.foldl applyOp m)) := by
  constructor
  · intro op hok
    obtain ⟨h1, h2, _, _⟩ := applyOp_preserves m op hsort hrange hok
    exact ⟨h1, h2⟩
  · intro ops hok
    exact (foldl_applyOp_preserves ops m hsort hrange hok).1

/-- C3 (corrected): on a sorted map with a non-degenerate range, consolidation
keeps exactly the last of the points sitting at `startRange` and exactly the
first of those at `endRange`; an interior run at one exact position is left
unchanged when it has at most two points, and is reduced to exactly its first
and last point (two survivors, not one representative as the claim states)
otherwise. -/
theorem C3_consolidation_rules (m : ColorMap) (hsort : SortedCM m)
    (hse : m.startRange.getD 0 ≠ m.endRange.getD 1) :
    ((consolidateColorMap m).controlPoints.filter
        (fun cp => decide (cp.position = m.startRange.getD 0)) =
      ((m.controlPoints.filter fun cp =>
        decide (cp.position = m.startRange.getD 0)).getLast?).toList) ∧
    ((consolidateColorMap m).controlPoints.filter
        (fun cp => decide (cp.position = m.endRange.getD 1)) =
      ((m.controlPoints.filter fun cp =>
        decide (cp.position = m.endRange.getD 1)).head?).toList) ∧
    (∀ q, q ≠ m.startRange.getD 0 → q ≠ m.endRange.getD 1 →
      (consolidateColorMap m).controlPoints.filter (fun cp => decide (cp.position = q)) =
        (if (m.controlPoints.filter fun cp => decide (cp.position = q)).length ≤ 2
         then m.controlPoints.filter fun cp => decide (cp.position = q)
         else ((m.controlPoints.filter fun cp => decide (cp.position = q)).head?).toList ++
           ((m.controlPoints.filter fun cp => decide (cp.position = q)).getLast?).toList)) :=
  ⟨consolidate_filter_start m hsort hse, consolidate_filter_end m hsort hse,
    fun q hqs hqe => consolidate_filter_interior m hsort q hqs hqe⟩

/-- C5 (corrected): `handleRemoveIndex` refuses the removal exactly when the
map already has fewer than two control points; with two or more points any
in-range index is removed — so a two-point map is reduced to a single point,
contrary to the claim's "never reduced below 2 stops" — and an out-of-range
index leaves the map unchanged. -/
theorem C5_remove_guard (m : ColorMap) (index : ℕ) :
    (m.controlPoints.length < 2 → removeControlPoint m index = m) ∧
    (2 ≤ m.controlPoints.length → index < m.controlPoints.length →
      (removeControlPoint m index).controlPoints.length = m.controlPoints.length - 1) ∧
    (m.controlPoints.length ≤ index → removeControlPoint m index = m) := by
  refine ⟨?_, ?_, ?_⟩
  · intro h
    unfold removeControlPoint
    rw [if_pos h]
  · intro h2 hidx
    exact removeControlPoint_length m index h2 hidx
  · intro hidx
    exact removeControlPoint_of_out_of_range m index hidx

/-- Counterexample to C1 as stated: `cexMapC1` is strictly sorted with two
well-formed points, but its positions `0` and `2` are not normalized, so the
scan (which compares the normalized `u = 1` against raw positions) picks the
whole segment and `colorAt(endRange)` is the 50% gray `#808080` instead of the
last point's `#ffffff`. -/
theorem C1_counterexample :
    (cexMapC1.controlPoints.Pairwise fun x y => x.position < y.position) ∧
    2 ≤ cexMapC1.controlPoints.length ∧
    (∀ cp ∈ cexMapC1.controlPoints, WfColor cp.color) ∧
    (getColorAtPosition cexMapC1 (cexMapC1.endRange.getD 1)).map (·.hex) ≠
      some (cexMapC1.controlPoints.getLastD cpDefault).color.hex := by
  refine ⟨by decide, by decide, by decide, ?_⟩
  have heval : (getColorAtPosition cexMapC1 (cexMapC1.endRange.getD 1)).map (·.hex) =
      some "#808080" := by
    have hfp : findPair cexMapC1.controlPoints
        (min 1 (max 0 (normalizeT cexMapC1 (cexMapC1.endRange.getD 1)))) =
        some (⟨blackColor, 0⟩, ⟨whiteColor, 2⟩) := by
      have hnt : normalizeT cexMapC1 (cexMapC1.endRange.getD 1) = 1 := by
        show ((2 : ℚ) - 0) / (if (2 : ℚ) - 0 = 0 then 1 else 2 - 0) = 1
        norm_num
      rw [hnt]
      show findPair cexMapC1.controlPoints 1 = _
      unfold cexMapC1 findPair
      norm_num
    have h0 : parseHexColor blackColor.hex = some blackColor.rgb := by decide
    have h1 : parseHexColor whiteColor.hex = some whiteColor.rgb := by decide
    rw [getColorAtPosition_eq_mix cexMapC1 (cexMapC1.endRange.getD 1) ⟨blackColor, 0⟩
      ⟨whiteColor, 2⟩ blackColor.rgb whiteColor.rgb (by decide) hfp h0 h1]
    have hnt : normalizeT cexMapC1 (cexMapC1.endRange.getD 1) = 1 := by
      show ((2 : ℚ) - 0) / (if (2 : ℚ) - 0 = 0 then 1 else 2 - 0) = 1
      norm_num
    have hlt : (min 1 (max 0 (normalizeT cexMapC1 (cexMapC1.endRange.getD 1))) -
        (⟨blackColor, 0⟩ : ControlPoint).position) /
        (if (⟨whiteColor, 2⟩ : ControlPoint).position -
            (⟨blackColor, 0⟩ : ControlPoint).position = 0
          then 1 else (⟨whiteColor, 2⟩ : ControlPoint).position -
            (⟨blackColor, 0⟩ : ControlPoint).position) = 1 / 2 := by
      rw [hnt]
      norm_num
    rw [hlt]
    have hmix : chromaMix cexMapC1.interpolationMethod blackColor.rgb whiteColor.rgb (1 / 2) =
        ⟨128, 128, 128⟩ := by
      show mixRgbLinear blackColor.rgb whiteColor.rgb (1 / 2) = _
      unfold mixRgbLinear mixChannel jsRound clampChannel blackColor whiteColor
      norm_num
      rfl
    rw [hmix]
    decide
  rw [heval]
  decide

/-- Counterexample to C2 as stated: `cexMapC2` is sorted but its points sit
outside the declared range `[2, 4]`; moving point `0` to position `3` clamps
against `startRange = 2` and lands past its right neighbour, breaking
sortedness. -/
theorem C2_counterexample :
    (cexMapC2.controlPoints.Pairwise fun a b => a.position ≤ b.position) ∧
    ¬ ((applyOp cexMapC2 (.move 0 3)).controlPoints.Pairwise
        fun a b => a.position ≤ b.position) := by decide

/-- Counterexample to C3 as stated: `cexMapC3` is sorted with a non-degenerate
range and an interior run of exactly two points at position `1`; consolidation
keeps both, not "exactly one representative" as the claim states. -/
theorem C3_counterexample :
    (cexMapC3.controlPoints.Pairwise fun a b => a.position ≤ b.position) ∧
    cexMapC3.startRange.getD 0 ≠ cexMapC3.endRange.getD 1 ∧
    (cexMapC3.controlPoints.countP fun cp => cp.position = (1 : ℚ)) = 2 ∧
    ((consolidateColorMap cexMapC3).controlPoints.countP
      fun cp => cp.position = (1 : ℚ)) = 2 := by decide

/-- Counterexample to C4 as stated: the claim quantifies over every ColorMap,
but on the unsorted `cexMapC4` a second consolidation removes further points,
so consolidation is not idempotent without a sortedness hypothesis. -/
theorem C4_counterexample :
    consolidateColorMap (consolidateColorMap cexMapC4) ≠ consolidateColorMap cexMapC4 := by
  decide

/-- Counterexample to C5 as stated: the guard fires only when fewer than two
points exist before the removal, so removing from the two-point `cexMapC5`
leaves a single control point — the claim's "never reduced below 2 stops" is
false. -/
theorem C5_counterexample :
    cexMapC5.controlPoints.length = 2 ∧
    (removeControlPoint cexMapC5 0).controlPoints.length = 1 := by decide

/-- Counterexample to C7 as stated: with the zero-width range of `cexMapC7` the
normalized value is `pos - startRange`, so positions `1` and `0` normalize to
different values — they do not all map to one common value. -/
theorem C7_counterexample :
    cexMapC7.startRange.getD 0 = cexMapC7.endRange.getD 1 ∧
    normalizeT cexMapC7 1 ≠ normalizeT cexMapC7 0 := by
  refine ⟨rfl, ?_⟩
  have h1 : normalizeT cexMapC7 1 = 1 := by
    show ((1 : ℚ) - 0) / (if (0 : ℚ) - 0 = 0 then 1 else 0 - 0) = 1
    norm_num
  have h0 : normalizeT cexMapC7 0 = 0 := by
    show ((0 : ℚ) - 0) / (if (0 : ℚ) - 0 = 0 then 1 else 0 - 0) = 0
    norm_num
  rw [h1, h0]
  norm_num

/-- Witness for C1 at the concrete two-point map `wmapC1`. -/
theorem C1_witness :
    (wmapC1.controlPoints.Pairwise fun x y => x.position < y.position) ∧
    2 ≤ wmapC1.controlPoints.length ∧
    (wmapC1.controlPoints.headD cpDefault).position = 0 ∧
    (wmapC1.controlPoints.getLastD cpDefault).position = 1 ∧
    wmapC1.startRange.getD 0 ≠ wmapC1.endRange.getD 1 ∧
    (∀ cp ∈ wmapC1.controlPoints, WfColor cp.color) ∧
    ((getColorAtPosition wmapC1 (wmapC1.startRange.getD 0)).map (·.hex) =
        some (wmapC1.controlPoints.headD cpDefault).color.hex ∧
      (getColorAtPosition wmapC1 (wmapC1.endRange.getD 1)).map (·.hex) =
        some (wmapC1.controlPoints.getLastD cpDefault).color.hex) :=
  ⟨by decide, by decide, by decide, by decide, by decide, by decide,
    C1_interpolation_boundary wmapC1 (by decide) (by decide) (by decide) (by decide)
      (by decide) (by decide)⟩

/-- Witness for C2 at the concrete map `wmapC2` and the in-range insertion at
position `1`. -/
theorem C2_witness :
    SortedCM wmapC2 ∧ InRange wmapC2 ∧
    OpOK (wmapC2.startRange.getD 0) (wmapC2.endRange.getD 1) (.insert 1) ∧
    (SortedCM (applyOp wmapC2 (.insert 1)) ∧ InRange (applyOp wmapC2 (.insert 1))) :=
  ⟨by decide, by decide, show (0 : ℚ) ≤ 1 ∧ (1 : ℚ) ≤ 2 by decide,
    (C2_monotonic_ordering wmapC2 (by decide) (by decide)).1 (.insert 1)
      (show (0 : ℚ) ≤ 1 ∧ (1 : ℚ) ≤ 2 by decide)⟩

/-- Witness for C3 at the concrete map `wmapC3`, with the interior rule
instantiated at position `1`. -/
theorem C3_witness :
    SortedCM wmapC3 ∧
    wmapC3.startRange.getD 0 ≠ wmapC3.endRange.getD 1 ∧
    ((consolidateColorMap wmapC3).controlPoints.filter
        (fun cp => decide (cp.position = wmapC3.startRange.getD 0)) =
      ((wmapC3.controlPoints.filter fun cp =>
        decide (cp.position = wmapC3.startRange.getD 0)).getLast?).toList) ∧
    ((consolidateColorMap wmapC3).controlPoints.filter
        (fun cp => decide (cp.position = wmapC3.endRange.getD 1)) =
      ((wmapC3.controlPoints.filter fun cp =>
        decide (cp.position = wmapC3.endRange.getD 1)).head?).toList) ∧
    ((consolidateColorMap wmapC3).controlPoints.filter
        (fun cp => decide (cp.position = (1 : ℚ))) =
      (if (wmapC3.controlPoints.filter fun cp => decide (cp.position = (1 : ℚ))).length ≤ 2
       then wmapC3.controlPoints.filter fun cp => decide (cp.position = (1 : ℚ))
       else ((wmapC3.controlPoints.filter fun cp =>
           decide (cp.position = (1 : ℚ))).head?).toList ++
         ((wmapC3.controlPoints.filter fun cp =>
           decide (cp.position = (1 : ℚ))).getLast?).toList)) :=
  ⟨by decide, by decide,
    (C3_consolidation_rules wmapC3 (by decide) (by decide)).1,
    (C3_consolidation_rules wmapC3 (by decide) (by decide)).2.1,
    (C3_consolidation_rules wmapC3 (by decide) (by decide)).2.2 1 (by decide) (by decide)⟩

/-- Witness for C4 at the concrete sorted map `wmapC4`. -/
theorem C4_witness :
    SortedCM wmapC4 ∧
    consolidateColorMap (consolidateColorMap wmapC4) = consolidateColorMap wmapC4 :=
  ⟨by decide, C4_consolidate_idempotent wmapC4 (by decide)⟩

/-- Witness for C5: the one-point map `wmapC5a` is left unchanged, removal of
point `0` from the three-point map `wmapC5b` drops its length to `2`, and the
out-of-range index `5` leaves `wmapC5b` unchanged. -/
theorem C5_witness :
    (wmapC5a.controlPoints.length < 2 ∧ removeControlPoint wmapC5a 0 = wmapC5a) ∧
    (2 ≤ wmapC5b.controlPoints.length ∧ 0 < wmapC5b.controlPoints.length ∧
      (removeControlPoint wmapC5b 0).controlPoints.length =
        wmapC5b.controlPoints.length - 1) ∧
    (wmapC5b.controlPoints.length ≤ 5 ∧ removeControlPoint wmapC5b 5 = wmapC5b) :=
  ⟨⟨by decide, (C5_remove_guard wmapC5a 0).1 (by decide)⟩,
    ⟨by decide, by decide, (C5_remove_guard wmapC5b 0).2.1 (by decide) (by decide)⟩,
    ⟨by decide, (C5_remove_guard wmapC5b 5).2.2 (by decide)⟩⟩

/-- Witness for C6 at the concrete map `wmapC6`, whose points `0` and `1` are
tied at position `1`, dragged towards position `2`. -/
theorem C6_witness :
    (tiedIndices wmapC6.controlPoints 1 = tiedIndices wmapC6.controlPoints 1) ∧
    2 ≤ (tiedIndices wmapC6.controlPoints 1).length ∧
    (∃ m', movePointRefs wmapC6 1 (tiedIndices wmapC6.controlPoints 1) (3 / 2) = some m' ∧
      moveRep wmapC6 1 (3 / 2) ∈ tiedIndices wmapC6.controlPoints 1 ∧
      ((1 : ℚ) < 3 / 2 → ∀ i ∈ tiedIndices wmapC6.controlPoints 1, i ≤ moveRep wmapC6 1 (3 / 2)) ∧
      (¬ (1 : ℚ) < 3 / 2 →
        ∀ i ∈ tiedIndices wmapC6.controlPoints 1, moveRep wmapC6 1 (3 / 2) ≤ i) ∧
      (∀ i ∈ tiedIndices wmapC6.controlPoints 1, i ≠ moveRep wmapC6 1 (3 / 2) →
        posAt? m'.controlPoints i = some 1) ∧
      (∀ i, i ≠ moveRep wmapC6 1 (3 / 2) → m'.controlPoints.get? i = wmapC6.controlPoints.get? i) ∧
      ((m'.controlPoints.get? (moveRep wmapC6 1 (3 / 2))).map (·.position) =
          some (moveClamped wmapC6 (3 / 2) (moveRep wmapC6 1 (3 / 2))) ∨ m' = wmapC6)) :=
  ⟨rfl, by decide,
    C6_tied_drag_representative wmapC6 1 (3 / 2) (tiedIndices wmapC6.controlPoints 1)
      rfl (by decide)⟩

/-- Witness for C7 at the zero-width-range map `cexMapC7` and query position
`5`. -/
theorem C7_witness :
    cexMapC7.startRange.getD 0 = cexMapC7.endRange.getD 1 ∧
    normalizeT cexMapC7 5 = 5 - cexMapC7.startRange.getD 0 :=
  ⟨by decide, C7_degenerate_normalization cexMapC7 5 (by decide)⟩

/-- Witness for C8 at the empty map `emptyMapC8` and query position `0`. -/
theorem C8_witness :
    emptyMapC8.controlPoints = [] ∧
    getColorAtPosition emptyMapC8 0 =
      some { rgb := ⟨0, 0, 0⟩, hsv := ⟨0, 0, 0⟩, hex := "#000000", isDark := false } :=
  ⟨rfl, C8_empty_invalid emptyMapC8 0 rfl⟩

/-- Witness for C9 at the concrete serializable map `wmsC9`, whose colors use
upper-case and shorthand hex and whose ranges are omitted. -/
theorem C9_witness :
    (∀ cp ∈ wmsC9.controlPoints, (parseHexColor cp.color).isSome) ∧
    colorMapToColorMapString (colorMapStringToColorMap wmsC9) =
      { controlPoints := wmsC9.controlPoints.map fun cp =>
          { position := cp.position,
            color := ((parseHexColor cp.color).map rgbToHexString).getD cp.color },
        interpolationMethod := wmsC9.interpolationMethod,
        startRange := some (wmsC9.startRange.getD 0),
        endRange := some (wmsC9.endRange.getD 1) } :=
  ⟨by decide, C9_serialization_roundtrip wmsC9 (by decide)⟩

/-- Witness for C10 at the concrete map `wmapC6`, dragged from the shared
position `1` towards position `2`. -/
theorem C10_witness :
    (tiedIndices wmapC6.controlPoints 1 = tiedIndices wmapC6.controlPoints 1) ∧
    tiedIndices wmapC6.controlPoints 1 ≠ [] ∧
    (∃ m', movePointRefs wmapC6 1 (tiedIndices wmapC6.controlPoints 1) 2 = some m' ∧
      m'.interpolationMethod = wmapC6.interpolationMethod ∧
      m'.startRange = wmapC6.startRange ∧
      m'.endRange = wmapC6.endRange ∧
      m'.controlPoints.length = wmapC6.controlPoints.length ∧
      (∀ i, (m'.controlPoints.get? i).map (·.color) =
        (wmapC6.controlPoints.get? i).map (·.color)) ∧
      (∀ i, i ∉ tiedIndices wmapC6.controlPoints 1 →
        m'.controlPoints.get? i = wmapC6.controlPoints.get? i)) :=
  ⟨rfl, by decide,
    C10_move_frame wmapC6 1 2 (tiedIndices wmapC6.controlPoints 1) rfl (by decide)⟩

end ColorMappingEditor
